import Mathlib

/-!
# Rexy.ai mind-map page: score normalisation and tree rendering

A shallow embedding of `getValidScore`, `getScoreStyle`, `renderMindMapNode`
and `renderMindMap` of `src/buscul/src/components/pages/MindMapPage.jsx`, and
of `handleFileChange` and `uploadDocuments` of
`src/buscul/src/components/sidebar/Sidebar.jsx`.

Modelling conventions.

* A JavaScript number is a `JSNum`: a finite value, `NaN`, `+Infinity` or
  `-Infinity`.  A finite value is the rational number the binary64 value
  stands for; `-0` is identified with `0` (both give the same result
  everywhere below).  The quotient `num / 100`, the product `num * 100` and a
  parsed decimal literal are rounded to the nearest binary64 value, ties to
  even (`roundToDouble`); a rational `x` is a binary64 value when
  `roundToDouble x = x`.  Overflow of a parsed literal to `Infinity` is
  modelled.
* A score is a `JSValue` as it can come out of `JSON.parse`, or be missing;
  every `JSValue` converts to text.  A `ScoreField` is a `JSValue` or a plain
  object given by its own properties, whose conversion to text may throw;
  `getValidScoreCall` is the call of `getValidScore` on a `ScoreField`.
* Recursion of `renderMindMapNode` is bounded by a `fuel` argument standing for
  the depth of the call stack; `none` means the recursion did not finish within
  that depth.
* A handler of the sidebar is the list of effects it performs, in order: the
  state setters it calls and the calls it makes; what the server answers is an
  argument.
-/

namespace MindMapPage

/-! ## JavaScript numbers and values -/

/-- A JavaScript Number value. -/
inductive JSNum where
  | finite (q : ℚ)
  | nan
  | posInf
  | negInf
  deriving DecidableEq

/-- A JavaScript value that can be stored in the `score` field of a node and
whose conversion to text succeeds.  `other s` is any remaining value (array,
object), given by the text `s` that `ToString` produces for it; an object
whose conversion throws is a `ScoreField.object`, not a `JSValue`. -/
inductive JSValue where
  | undefined
  | null
  | bool (b : Bool)
  | number (x : JSNum)
  | string (s : String)
  | other (s : String)
  deriving DecidableEq

/-- The global `isNaN` on a Number. -/
def isNaN : JSNum → Bool
  | .nan => true
  | _ => false

/-- The global `isFinite` on a Number. -/
def isFinite : JSNum → Bool
  | .finite _ => true
  | _ => false

/-! ## `parseFloat` -/

/-- Decimal digit `0`..`9`. -/
def isDecimalDigit (c : Char) : Bool :=
  decide ('0' ≤ c) && decide (c ≤ '9')

/-- White space and line terminators skipped by `parseFloat` (code points). -/
def isStrWhiteSpaceChar (c : Char) : Bool :=
  let n := c.toNat
  n = 0x09 || n = 0x0A || n = 0x0B || n = 0x0C || n = 0x0D || n = 0x20 ||
  n = 0xA0 || n = 0x1680 || (decide (0x2000 ≤ n) && decide (n ≤ 0x200A)) ||
  n = 0x2028 || n = 0x2029 || n = 0x202F || n = 0x205F || n = 0x3000 ||
  n = 0xFEFF

/-- The value of a run of decimal digits, most significant first. -/
def digitsValue (ds : List Char) : Nat :=
  ds.foldl (fun acc c => 10 * acc + (c.toNat - '0'.toNat)) 0

/-- The nearest integer, ties to the even one. -/
def roundHalfEven (m : ℚ) : Int :=
  if m - ⌊m⌋ < 1 / 2 then ⌊m⌋
  else if 1 / 2 < m - ⌊m⌋ then ⌊m⌋ + 1
  else if ⌊m⌋ % 2 = 0 then ⌊m⌋ else ⌊m⌋ + 1

/-- The exponent of the spacing of the binary64 values around `q`: 52 below
the binary exponent of `q`, and `-1074` in the subnormal range. -/
def ulpExponent (q : ℚ) : Int := max (Int.log 2 |q| - 52) (-1074)

/-- The binary64 value nearest to `q`, ties to even, for a magnitude below
`overflowThreshold`. -/
def roundToDouble (q : ℚ) : ℚ :=
  (roundHalfEven (q / 2 ^ ulpExponent q) : ℚ) * 2 ^ ulpExponent q

/-- The smallest magnitude that rounds to an infinity:
`2^1024 - 2^970`. -/
def overflowThreshold : ℚ := 2 ^ 1024 - 2 ^ 970

/-- The Number value of a signed mathematical value. -/
def toNumber (negative : Bool) (q : ℚ) : JSNum :=
  if overflowThreshold ≤ q then (if negative then .negInf else .posInf)
  else .finite (if negative then -(roundToDouble q) else roundToDouble q)

/-- The optional `ExponentPart` of a `StrDecimalLiteral`: the power of ten to
scale by; `0` when the text does not start with a complete exponent. -/
def exponentPart : List Char → Int
  | e :: rest =>
    if e = 'e' ∨ e = 'E' then
      match rest with
      | '-' :: ds => - (digitsValue (ds.takeWhile isDecimalDigit) : Int)
      | '+' :: ds => (digitsValue (ds.takeWhile isDecimalDigit) : Int)
      | ds => (digitsValue (ds.takeWhile isDecimalDigit) : Int)
    else 0
  | [] => 0

/-- The unsigned part of a `StrDecimalLiteral` prefix. -/
def parseUnsigned (negative : Bool) (cs : List Char) : JSNum :=
  if "Infinity".toList.isPrefixOf cs then
    (if negative then .negInf else .posInf)
  else
    let intDigits := cs.takeWhile isDecimalDigit
    let rest := cs.dropWhile isDecimalDigit
    let fracDigits := match rest with
      | '.' :: r => r.takeWhile isDecimalDigit
      | _ => []
    let tail := match rest with
      | '.' :: r => r.dropWhile isDecimalDigit
      | _ => rest
    if intDigits.isEmpty && fracDigits.isEmpty then .nan
    else
      let mantissa : ℚ :=
        (digitsValue intDigits : ℚ) + (digitsValue fracDigits : ℚ) / 10 ^ fracDigits.length
      toNumber negative (mantissa * (10 : ℚ) ^ exponentPart tail)

/-- The global `parseFloat` applied to a string: skip leading white space and
take the longest prefix that is a `StrDecimalLiteral`. -/
def parseFloat (s : String) : JSNum :=
  match s.toList.dropWhile isStrWhiteSpaceChar with
  | '-' :: cs => parseUnsigned true cs
  | '+' :: cs => parseUnsigned false cs
  | cs => parseUnsigned false cs

/-- The global `parseFloat` applied to a value that is not a string: the value
is first converted by `ToString`.  For a Number the decimal text
parses back to the same Number, so a finite `number (finite x)` is meant with
`x` a binary64 value. -/
def parseFloatValue : JSValue → JSNum
  | .undefined => parseFloat "undefined"
  | .null => parseFloat "null"
  | .bool true => parseFloat "true"
  | .bool false => parseFloat "false"
  | .number x => x
  | .string s => parseFloat s
  | .other s => parseFloat s

/-- `Math.round` on a finite value: the nearest integer, ties towards
`+Infinity`. -/
def mathRound (q : ℚ) : Int := ⌊q + 1 / 2⌋

/-! ## Score validation and styling (lines 91-137) -/

/-- `score.replace(/[^0-9.]/g, '')`. -/
def cleanScore (s : String) : String :=
  String.mk (s.toList.filter (fun c => isDecimalDigit c || c = '.'))

/-- The coerced numeric value `num` of lines 95-103. -/
def coerce (score : JSValue) : JSNum :=
  match score with
  | .string s => parseFloat (cleanScore s)
  | v => parseFloatValue v

/-- `getValidScore` (lines 91-127). -/
def getValidScore (score : JSValue) : Int :=
  let num := coerce score
  if isNaN num || !isFinite num then 30
  else
    match num with
    | .finite q =>
      let num := if q < 0 then 0 else q
      let num := if num > 1 then (if num ≤ 100 then roundToDouble (num / 100) else 1) else num
      let percentage := mathRound (roundToDouble (num * 100))
      max 5 (min 100 percentage)
    | _ => 30

/-- The four CSS classes returned by `getScoreStyle`. -/
inductive ScoreClass where
  | scoreHigh
  | scoreMedium
  | scoreLow
  | scoreVeryLow
  deriving DecidableEq, Repr

/-- `getScoreStyle` (lines 130-137). -/
def getScoreStyle (score : JSValue) : ScoreClass :=
  let percentage := getValidScore score
  if percentage ≥ 80 then .scoreHigh
  else if percentage ≥ 60 then .scoreMedium
  else if percentage ≥ 40 then .scoreLow
  else .scoreVeryLow

/-! ## Scores whose conversion to text may throw -/

/-- A value of the `score` field as `JSON.parse` delivers it, or a missing
field: a value whose conversion to text succeeds, or a plain object given by
its own properties in order (`{"toString":0}` is
`object [("toString", number (finite 0))]`). -/
inductive ScoreField where
  | value (v : JSValue)
  | object (fields : List (String × JSValue))

/-- `ToString` of a plain object built by `JSON.parse`, `none` when it throws
TypeError.  The conversion tries the method `toString`, then `valueOf`.  An own
property of either name hides the inherited method and, being a JSON value, is
not callable.  The inherited `toString` returns `[object Object]`; the
inherited `valueOf` returns the object itself, which is no primitive. -/
def objectToString (fields : List (String × JSValue)) : Option String :=
  match fields.lookup "toString" with
  | none => some "[object Object]"
  | some _ =>
    match fields.lookup "valueOf" with
    | none => none
    | some _ => none

/-- The score as a value that converts to text, `none` when the conversion
throws. -/
def ScoreField.convert : ScoreField → Option JSValue
  | .value v => some v
  | .object fields =>
    match objectToString fields with
    | none => none
    | some text => some (.other text)

/-- The call `getValidScore(score)` for any value of the score field.  The
template literal of line 92 converts `score` to text, and so does `parseFloat`
at line 102 for a score that is no string; when the conversion throws, the
call throws and returns nothing (`none`).  Otherwise the result is that of
lines 94-126. -/
def getValidScoreCall (score : ScoreField) : Option Int :=
  match score.convert with
  | none => none
  | some v => some (getValidScore v)

/-! ## The specification's wording of the classification and the legend -/

/-- Classification thresholds as the specification words them: `>=80` high,
`>=60` medium, `>=40` low, else very-low. -/
def classification (p : Int) : ScoreClass :=
  if 80 ≤ p then .scoreHigh
  else if 60 ≤ p then .scoreMedium
  else if 40 ≤ p then .scoreLow
  else .scoreVeryLow

/-- The score legend rendered by `renderMindMap` (lines 190-202): the range of
percentages printed next to each class, `High (80%+)`, `Medium (60-79%)`,
`Low (40-59%)`, `Very Low (<40%)`. -/
def legendRange : ScoreClass → Int → Bool
  | .scoreHigh, p => decide (80 ≤ p)
  | .scoreMedium, p => decide (60 ≤ p) && decide (p ≤ 79)
  | .scoreLow, p => decide (40 ≤ p) && decide (p ≤ 59)
  | .scoreVeryLow, p => decide (p < 40)

/-! ## The mind-map document (spec section 6) -/

/-- A node or edge identifier as `JSON.parse` delivers it, compared with
`===`: a number or a text. -/
inductive Ident where
  | num (n : Int)
  | str (s : String)
  deriving DecidableEq

/-- A node of the mind map. -/
structure Node where
  id : Ident
  label : String
  level : Int
  score : JSValue
  deriving DecidableEq

/-- A directed edge of the mind map. -/
structure Edge where
  source : Ident
  target : Ident
  deriving DecidableEq

/-- The state `mindMapData` when it is not `null`; `nodes` may be missing. -/
structure MindMapData where
  nodes : Option (List Node)
  edges : List Edge

/-- The element returned by `renderMindMapNode`: the node shown, the `level`
argument of the call, the displayed percentage and score class, and the
elements of the child nodes. -/
inductive RenderTree where
  | mk (node : Node) (level : Nat) (scorePercentage : Int) (scoreClass : ScoreClass)
      (children : List RenderTree)

/-- The node shown by an element. -/
def RenderTree.node : RenderTree → Node
  | .mk node _ _ _ _ => node

/-- The `level` an element was rendered at. -/
def RenderTree.level : RenderTree → Nat
  | .mk _ level _ _ _ => level

/-- The child elements of an element. -/
def RenderTree.children : RenderTree → List RenderTree
  | .mk _ _ _ _ children => children

/-- What `renderMindMap` returns. -/
inductive Rendered where
  | noData
  | noRoot
  | visualization (tree : RenderTree)

/-! ## Tree rendering (lines 140-207) -/

/-- The `childNodes` of lines 141-144: the edges leaving `node`, each replaced
by the first node carrying the edge's target id, unresolved ones removed by
`.filter(Boolean)`. -/
def childNodes (nodes : List Node) (node : Node) (edges : List Edge) : List Node :=
  let childEdges := edges.filter (fun edge => edge.source = node.id)
  (childEdges.map (fun edge => nodes.find? (fun n => n.id = edge.target))).filterMap id

/-- `childNodes.map(f)` for a rendering `f` that may fail to finish: the
children are rendered in order. -/
def mapRender (f : Node → Option RenderTree) : List Node → Option (List RenderTree)
  | [] => some []
  | childNode :: rest =>
    match f childNode with
    | none => none
    | some t =>
      match mapRender f rest with
      | none => none
      | some ts => some (t :: ts)

/-- `renderMindMapNode` (lines 140-171), with `mindMapData.nodes` passed as
`nodes`.  `fuel` bounds the depth of the recursion. -/
def renderMindMapNode (nodes : List Node) :
    Nat → Node → List Edge → Nat → Option RenderTree
  | 0, _, _, _ => none
  | fuel + 1, node, edges, level =>
    let scorePercentage := getValidScore node.score
    let scoreClass := getScoreStyle node.score
    match mapRender (fun childNode => renderMindMapNode nodes fuel childNode edges (level + 1))
        (childNodes nodes node edges) with
    | none => none
    | some children => some (.mk node level scorePercentage scoreClass children)

/-- `renderMindMap` (lines 173-207). -/
def renderMindMap (fuel : Nat) (mindMapData : Option MindMapData) : Option Rendered :=
  match mindMapData with
  | none => some .noData
  | some data =>
    match data.nodes with
    | none => some .noData
    | some nodes =>
      match nodes.find? (fun node => node.level = 0) with
      | none => some .noRoot
      | some rootNode =>
        match renderMindMapNode nodes fuel rootNode data.edges 0 with
        | none => none
        | some tree => some (.visualization tree)

/-! ## Vocabulary of the claims about the tree -/

/-- The children of the node with id `id` as the specification words them:
scan the edges in order, keep each edge whose source is `id`, replace it by the
node whose id is the edge's target, drop the edge when there is no such
node. -/
def scanChildren (nodes : List Node) (id : Ident) : List Edge → List Node
  | [] => []
  | edge :: rest =>
    if edge.source = id then
      match nodes.find? (fun n => n.id = edge.target) with
      | some n => n :: scanChildren nodes id rest
      | none => scanChildren nodes id rest
    else scanChildren nodes id rest

mutual
/-- Every element of a tree: the tree itself and all its descendants. -/
def RenderTree.subtrees : RenderTree → List RenderTree
  | .mk node level p c children => .mk node level p c children :: subtreesList children
/-- The elements of a list of trees. -/
def subtreesList : List RenderTree → List RenderTree
  | [] => []
  | t :: ts => t.subtrees ++ subtreesList ts
end

mutual
/-- The id sequences of the root-to-leaf paths of a tree. -/
def RenderTree.paths : RenderTree → List (List Ident)
  | .mk node _ _ _ [] => [[node.id]]
  | .mk node _ _ _ (c :: cs) => (pathsList (c :: cs)).map (fun p => node.id :: p)
/-- The root-to-leaf paths of the trees of a list. -/
def pathsList : List RenderTree → List (List Ident)
  | [] => []
  | t :: ts => t.paths ++ pathsList ts
end

/-- A parent id and the id of a child it yields: some edge leads from `a` to
`b` and `b` is the id of a node. -/
def ChildStep (nodes : List Node) (edges : List Edge) (a b : Ident) : Prop :=
  ∃ edge ∈ edges, edge.source = a ∧ edge.target = b ∧ ∃ n ∈ nodes, n.id = b

/-- A cycle of resolving edges can be reached from `root`. -/
def CycleReachable (nodes : List Node) (edges : List Edge) (root : Ident) : Prop :=
  ∃ c, Relation.ReflTransGen (ChildStep nodes edges) root c ∧
    Relation.TransGen (ChildStep nodes edges) c c

/-- The graph of the scenario of spec section 8. -/
def scenarioNodes : List Node :=
  [⟨.num 1, "root", 0, .number (.finite (roundToDouble (9 / 10)))⟩,
   ⟨.num 2, "a", 1, .string "70%"⟩,
   ⟨.num 3, "b", 1, .null⟩]

/-- The edges of the scenario of spec section 8, back edge `3 -> 1` included. -/
def scenarioEdges : List Edge :=
  [⟨.num 1, .num 2⟩, ⟨.num 1, .num 3⟩, ⟨.num 3, .num 1⟩]

/-- The scenario without its back edge. -/
def treeEdges : List Edge :=
  [⟨.num 1, .num 2⟩, ⟨.num 1, .num 3⟩]

/-- Rendering a node with id `a` finishes within depth `fuel`. -/
def FinishesAt (nodes : List Node) (edges : List Edge) (fuel : Nat) (a : Ident) : Prop :=
  ∃ node level t, node.id = a ∧ renderMindMapNode nodes fuel node edges level = some t

/-- Nodes 1 (level 0) and 3. -/
def cycleNodes : List Node :=
  [⟨.num 1, "root", 0, .number (.finite (roundToDouble (9 / 10)))⟩, ⟨.num 3, "b", 1, .null⟩]

/-- The two-node cycle `1 -> 3 -> 1`. -/
def cycleEdges : List Edge :=
  [⟨.num 1, .num 3⟩, ⟨.num 3, .num 1⟩]

/-- Edges with a duplicate (`1 -> 2` twice) and a target that is no node
(`1 -> 9`). -/
def dupEdges : List Edge :=
  [⟨.num 1, .num 2⟩, ⟨.num 1, .num 9⟩, ⟨.num 1, .num 2⟩, ⟨.num 2, .num 3⟩]

/-- Nodes of which the second and the third have level 0. -/
def twoRootsNodes : List Node :=
  [⟨.num 2, "a", 1, .string "70%"⟩,
   ⟨.num 1, "root", 0, .number (.finite (roundToDouble (9 / 10)))⟩,
   ⟨.num 3, "b", 0, .null⟩]

/-- The text with every character other than the decimal digits `0`-`9` and
`.` removed, as the specification words step 1 of the normalisation. -/
def stripNonNumeric : List Char → List Char
  | [] => []
  | c :: cs =>
    if c ∈ ['0', '1', '2', '3', '4', '5', '6', '7', '8', '9', '.'] then c :: stripNonNumeric cs
    else stripNonNumeric cs

/-- A tree of labels: what is left of a rendered tree when only some data of
each element is kept. -/
inductive Rose (α : Type) where
  | mk (label : α) (children : List (Rose α))

mutual
/-- The shape of a tree with each element replaced by `g node level`. -/
def RenderTree.project {α : Type} (g : Node → Nat → α) : RenderTree → Rose α
  | .mk node level _ _ children => .mk (g node level) (projectList g children)
/-- The shapes of the trees of a list. -/
def projectList {α : Type} (g : Node → Nat → α) : List RenderTree → List (Rose α)
  | [] => []
  | t :: ts => t.project g :: projectList g ts
end

mutual
/-- Every element of a tree paired with the number of edges on its path from
the top, counted from `d` at the top. -/
def RenderTree.withDepth : RenderTree → Nat → List (Nat × RenderTree)
  | .mk node level p c children, d =>
    (d, .mk node level p c children) :: withDepthList children (d + 1)
/-- The elements of the trees of a list, all tops at depth `d`. -/
def withDepthList : List RenderTree → Nat → List (Nat × RenderTree)
  | [], _ => []
  | t :: ts, d => t.withDepth d ++ withDepthList ts d
end

/-- Two nodes that differ at most in their `level`. -/
def SameButLevel (n n' : Node) : Prop :=
  n.id = n'.id ∧ n.label = n'.label ∧ n.score = n'.score

/-- A diamond: nodes 2 and 3 both have an edge to node 4, node 4 has an edge to
node 5. -/
def diamondNodes : List Node :=
  [⟨.num 1, "root", 0, .number (.finite (roundToDouble (9 / 10)))⟩,
   ⟨.num 2, "a", 1, .string "70%"⟩,
   ⟨.num 3, "b", 1, .null⟩,
   ⟨.num 4, "c", 2, .number (.finite 45)⟩,
   ⟨.num 5, "d", 3, .undefined⟩,
   ⟨.num 6, "e", 0, .undefined⟩]

/-- The edges of the diamond; `3 -> 9` leads to no node. -/
def diamondEdges : List Edge :=
  [⟨.num 1, .num 2⟩, ⟨.num 1, .num 3⟩, ⟨.num 2, .num 4⟩, ⟨.num 3, .num 9⟩,
   ⟨.num 3, .num 4⟩, ⟨.num 4, .num 5⟩]

/-- The diamond nodes with other levels, the first level-0 node being the
same. -/
def diamondNodesRelevelled : List Node :=
  [⟨.num 1, "root", 0, .number (.finite (roundToDouble (9 / 10)))⟩,
   ⟨.num 2, "a", 7, .string "70%"⟩,
   ⟨.num 3, "b", 0, .null⟩,
   ⟨.num 4, "c", 1, .number (.finite 45)⟩,
   ⟨.num 5, "d", 1, .undefined⟩,
   ⟨.num 6, "e", 4, .undefined⟩]

end MindMapPage

namespace Sidebar

/-! ## The file picker of the sidebar (Sidebar.jsx, lines 16-19 and 49-118) -/

/-- A file chosen in the file input, given by its name. -/
abbrev File := String

/-- The four state variables the two handlers write. -/
structure State where
  selectedFiles : List File
  uploading : Bool
  uploadError : Option String
  uploadSuccess : Bool
  deriving DecidableEq

/-- What a handler does, in order: state setters and calls. -/
inductive Effect where
  | setSelectedFiles (files : List File)
  | setUploading (value : Bool)
  | setUploadError (message : Option String)
  | setUploadSuccess (value : Bool)
  | uploadDocuments (files : List File)
  | postUploadDocument (files : List File) (userId : String)
  | clearSuccessAfter (milliseconds : Nat)
  | fetchDocuments
  deriving DecidableEq

/-- What the `fetch` of `uploadDocuments` ends in: it throws, or a response
arrives with its `ok` flag, status and body text. -/
inductive FetchOutcome where
  | failed (message : String)
  | response (ok : Bool) (status : Nat) (body : String)

/-- `handleFileChange` (lines 49-62) for the files of `event.target.files`. -/
def handleFileChange (files : List File) : List Effect :=
  if files.length > 0 then
    if files.length > 5 then
      [.setUploadError (some "You can upload a maximum of 5 files at once.")]
    else
      [.setSelectedFiles files, .setUploadError none, .setUploadSuccess false,
        .uploadDocuments files]
  else []

/-- `uploadDocuments` (lines 64-118); `user` is the id of the logged-in user, if
any, and `outcome` what the request ends in. -/
def uploadDocuments (user : Option String) (outcome : FetchOutcome) (files : List File) :
    List Effect :=
  if files.length = 0 then []
  else
    [.setUploading true, .setUploadError none, .setUploadSuccess false] ++
    (match user with
      | none => [.setUploadError (some "You must be logged in to upload documents.")]
      | some userId =>
        .postUploadDocument files userId ::
        (match outcome with
          | .failed message => [.setUploadError (some message), .setSelectedFiles []]
          | .response ok status body =>
            if !ok then
              [.setUploadError (some ("Upload failed (" ++ toString status ++ "): " ++
                  (if body.isEmpty then "Unknown error" else body))),
                .setSelectedFiles []]
            else [.setUploadSuccess true, .clearSuccessAfter 3000, .fetchDocuments])) ++
    [.setUploading false]

/-- The state after one effect; calls leave the four variables as they are. -/
def applyEffect (st : State) : Effect → State
  | .setSelectedFiles files => { st with selectedFiles := files }
  | .setUploading value => { st with uploading := value }
  | .setUploadError message => { st with uploadError := message }
  | .setUploadSuccess value => { st with uploadSuccess := value }
  | _ => st

/-- The state after a list of effects. -/
def run (st : State) (effects : List Effect) : State :=
  effects.foldl applyEffect st

/-- The file lists of the calls of `uploadDocuments` among some effects. -/
def uploadCalls : List Effect → List (List File)
  | [] => []
  | .uploadDocuments files :: rest => files :: uploadCalls rest
  | _ :: rest => uploadCalls rest

/-- The effects with every call of `uploadDocuments` replaced by what the
call does. -/
def expandCalls (user : Option String) (outcome : FetchOutcome) : List Effect → List Effect
  | [] => []
  | .uploadDocuments files :: rest =>
    uploadDocuments user outcome files ++ expandCalls user outcome rest
  | effect :: rest => effect :: expandCalls user outcome rest

/-- The requests sent among some effects. -/
def requests : List Effect → List (List File × String)
  | [] => []
  | .postUploadDocument files userId :: rest => (files, userId) :: requests rest
  | _ :: rest => requests rest

end Sidebar

namespace MindMapPage

/-! ## Facts about binary64 rounding -/

theorem roundHalfEven_intCast (n : Int) : roundHalfEven (n : ℚ) = n := by
  simp [roundHalfEven]

theorem floor_le_roundHalfEven (m : ℚ) : ⌊m⌋ ≤ roundHalfEven m := by
  unfold roundHalfEven
  split_ifs <;> omega

theorem roundHalfEven_le_floor_add_one (m : ℚ) : roundHalfEven m ≤ ⌊m⌋ + 1 := by
  unfold roundHalfEven
  split_ifs <;> omega

theorem roundHalfEven_mono {m₁ m₂ : ℚ} (h : m₁ ≤ m₂) : roundHalfEven m₁ ≤ roundHalfEven m₂ := by
  have hfl : ⌊m₁⌋ ≤ ⌊m₂⌋ := Int.floor_mono h
  rcases hfl.lt_or_eq with hlt | heq
  · calc roundHalfEven m₁ ≤ ⌊m₁⌋ + 1 := roundHalfEven_le_floor_add_one m₁
      _ ≤ ⌊m₂⌋ := hlt
      _ ≤ roundHalfEven m₂ := floor_le_roundHalfEven m₂
  · unfold roundHalfEven
    rw [heq]
    have hfrac : m₁ - ⌊m₂⌋ ≤ m₂ - ⌊m₂⌋ := by linarith
    split_ifs <;> first | omega | (exfalso; linarith)

theorem roundToDouble_zero : roundToDouble 0 = 0 := by
  simp [roundToDouble, roundHalfEven]

theorem two_zpow_pos (k : Int) : (0 : ℚ) < 2 ^ k := zpow_pos (by norm_num) k

theorem roundToDouble_nonneg {q : ℚ} (h : 0 ≤ q) : 0 ≤ roundToDouble q := by
  unfold roundToDouble
  have hm : (0 : ℚ) ≤ q / 2 ^ ulpExponent q := div_nonneg h (two_zpow_pos _).le
  have h0 : roundHalfEven ((0 : Int) : ℚ) ≤ roundHalfEven (q / 2 ^ ulpExponent q) :=
    roundHalfEven_mono (by simpa using hm)
  rw [roundHalfEven_intCast] at h0
  exact mul_nonneg (by exact_mod_cast h0) (two_zpow_pos _).le

theorem ulpExponent_mono {q₁ q₂ : ℚ} (h₀ : 0 < q₁) (h : q₁ ≤ q₂) :
    ulpExponent q₁ ≤ ulpExponent q₂ := by
  unfold ulpExponent
  have hlog : Int.log 2 |q₁| ≤ Int.log 2 |q₂| := by
    rw [abs_of_pos h₀, abs_of_pos (lt_of_lt_of_le h₀ h)]
    exact Int.log_mono_right h₀ h
  omega

theorem roundHalfEven_le_of_le_grid {m : ℚ} {n : Int} (h : m ≤ n) : roundHalfEven m ≤ n := by
  have := roundHalfEven_mono h
  rwa [roundHalfEven_intCast] at this

theorem le_roundHalfEven_of_grid_le {m : ℚ} {n : Int} (h : (n : ℚ) ≤ m) : n ≤ roundHalfEven m := by
  have := roundHalfEven_mono h
  rwa [roundHalfEven_intCast] at this

theorem two_zpow_eq_intCast {d : Int} (hd : 0 ≤ d) : ((2 : ℚ) ^ d) = (((2 : Int) ^ d.toNat : Int) : ℚ) := by
  obtain ⟨n, rfl⟩ := Int.eq_ofNat_of_zero_le hd
  simp

theorem roundToDouble_mono {q₁ q₂ : ℚ} (h₀ : 0 ≤ q₁) (h : q₁ ≤ q₂) :
    roundToDouble q₁ ≤ roundToDouble q₂ := by
  rcases h₀.lt_or_eq with hpos | hzero
  · have hpos₂ : 0 < q₂ := lt_of_lt_of_le hpos h
    have hk := ulpExponent_mono hpos h
    rcases hk.lt_or_eq with hlt | heq
    · -- different spacings: the power of two `2 ^ e₂` separates the results
      have hk₁ : Int.log 2 |q₁| - 52 ≤ ulpExponent q₁ := le_max_left _ _
      have hk₁' : -1074 ≤ ulpExponent q₁ := le_max_right _ _
      have hk₂ : ulpExponent q₂ = Int.log 2 |q₂| - 52 := by
        unfold ulpExponent at hlt hk₁' ⊢
        omega
      rw [abs_of_pos hpos] at hk₁
      rw [abs_of_pos hpos₂] at hk₂
      have hq₁ : q₁ < (2 : ℚ) ^ (Int.log 2 q₁ + 1) := by
        have := Int.lt_zpow_succ_log_self (b := 2) (by norm_num) q₁
        exact_mod_cast this
      have hq₂ : (2 : ℚ) ^ (Int.log 2 q₂) ≤ q₂ := by
        have := Int.zpow_log_le_self (b := 2) (r := q₂) (by norm_num) hpos₂
        exact_mod_cast this
      have hexp : Int.log 2 q₁ + 1 ≤ Int.log 2 q₂ := by omega
      have hB : q₁ ≤ (2 : ℚ) ^ (Int.log 2 q₂) :=
        le_trans hq₁.le (zpow_le_zpow_right₀ (by norm_num) hexp)
      -- left result is at most `2 ^ e₂`
      have hleft : roundToDouble q₁ ≤ (2 : ℚ) ^ (Int.log 2 q₂) := by
        unfold roundToDouble
        have hd : 0 ≤ Int.log 2 q₂ - ulpExponent q₁ := by omega
        have hm : q₁ / 2 ^ ulpExponent q₁ ≤ (((2 : Int) ^ (Int.log 2 q₂ - ulpExponent q₁).toNat : Int) : ℚ) := by
          rw [← two_zpow_eq_intCast hd, zpow_sub₀ (by norm_num)]
          exact div_le_div_of_nonneg_right hB (two_zpow_pos _).le
        have hr := roundHalfEven_le_of_le_grid hm
        calc (roundHalfEven (q₁ / 2 ^ ulpExponent q₁) : ℚ) * 2 ^ ulpExponent q₁
            ≤ (((2 : Int) ^ (Int.log 2 q₂ - ulpExponent q₁).toNat : Int) : ℚ) * 2 ^ ulpExponent q₁ :=
              mul_le_mul_of_nonneg_right (by exact_mod_cast hr) (two_zpow_pos _).le
          _ = (2 : ℚ) ^ (Int.log 2 q₂) := by
              rw [← two_zpow_eq_intCast hd, ← zpow_add₀ (by norm_num)]
              congr 1
              omega
      have hright : (2 : ℚ) ^ (Int.log 2 q₂) ≤ roundToDouble q₂ := by
        unfold roundToDouble
        have hd : (0 : Int) ≤ 52 := by norm_num
        have hm : (((2 : Int) ^ (52 : Int).toNat : Int) : ℚ) ≤ q₂ / 2 ^ ulpExponent q₂ := by
          rw [← two_zpow_eq_intCast hd, le_div_iff₀ (two_zpow_pos _), ← zpow_add₀ (by norm_num)]
          have : (52 : Int) + ulpExponent q₂ = Int.log 2 q₂ := by omega
          rw [this]
          exact hq₂
        have hr := le_roundHalfEven_of_grid_le hm
        calc (2 : ℚ) ^ (Int.log 2 q₂)
            = (((2 : Int) ^ (52 : Int).toNat : Int) : ℚ) * 2 ^ ulpExponent q₂ := by
              rw [← two_zpow_eq_intCast hd, ← zpow_add₀ (by norm_num)]
              congr 1
              omega
          _ ≤ (roundHalfEven (q₂ / 2 ^ ulpExponent q₂) : ℚ) * 2 ^ ulpExponent q₂ :=
              mul_le_mul_of_nonneg_right (by exact_mod_cast hr) (two_zpow_pos _).le
      exact le_trans hleft hright
    · unfold roundToDouble
      rw [heq]
      have hm : q₁ / 2 ^ ulpExponent q₂ ≤ q₂ / 2 ^ ulpExponent q₂ :=
        div_le_div_of_nonneg_right h (two_zpow_pos _).le
      exact mul_le_mul_of_nonneg_right (by exact_mod_cast roundHalfEven_mono hm)
        (two_zpow_pos _).le
  · rw [← hzero, roundToDouble_zero]
    exact roundToDouble_nonneg (hzero ▸ h)

/-! ## Facts about the score functions -/

theorem getValidScore_number_finite (x : ℚ) :
    getValidScore (.number (.finite x)) =
      max 5 (min 100 (mathRound (roundToDouble
        ((if (if x < 0 then 0 else x) > 1 then
            (if (if x < 0 then 0 else x) ≤ 100 then
              roundToDouble ((if x < 0 then 0 else x) / 100) else 1)
          else (if x < 0 then 0 else x)) * 100)))) := by
  simp only [getValidScore, coerce, parseFloatValue, isNaN, isFinite, Bool.not_true,
    Bool.or_self, Bool.false_eq_true, if_false]

theorem getValidScore_unit {x : ℚ} (h0 : 0 ≤ x) (h1 : x ≤ 1) :
    getValidScore (.number (.finite x)) =
      max 5 (min 100 (mathRound (roundToDouble (x * 100)))) := by
  rw [getValidScore_number_finite]
  have hx0 : ¬ x < 0 := by linarith
  have hx1 : ¬ x > 1 := by linarith
  simp only [hx0, hx1, if_false]

theorem getValidScore_percent {x : ℚ} (h1 : 1 < x) (h100 : x ≤ 100) :
    getValidScore (.number (.finite x)) =
      max 5 (min 100 (mathRound (roundToDouble (roundToDouble (x / 100) * 100)))) := by
  rw [getValidScore_number_finite]
  have hx0 : ¬ x < 0 := by linarith
  simp only [hx0, h1, h100, if_true, if_false]

theorem roundToDouble_hundred : roundToDouble 100 = 100 := by decide!

theorem mathRound_mono {a b : ℚ} (h : a ≤ b) : mathRound a ≤ mathRound b :=
  Int.floor_mono (by linarith)

theorem getValidScore_of_not_finite (score : JSValue)
    (h : isFinite (coerce score) = false) : getValidScore score = 30 := by
  unfold getValidScore
  simp [h]

theorem getScoreStyle_eq_classification (score : JSValue) :
    getScoreStyle score = classification (getValidScore score) := by
  simp [getScoreStyle, classification]

set_option maxRecDepth 100000 in
theorem percent_text_table :
    ∀ n : Fin 101, 2 ≤ n.val →
      getValidScore (.string (toString n.val ++ "%")) = max 5 (n.val : Int) := by
  decide!

/-- Every score that converts to text is displayed as an integer of
`5..100`. -/
theorem getValidScore_range (score : JSValue) :
    5 ≤ getValidScore score ∧ getValidScore score ≤ 100 := by
  unfold getValidScore
  generalize coerce score = num
  cases num with
  | finite q =>
    simp only [isNaN, isFinite, Bool.not_true, Bool.or_self, Bool.false_eq_true, if_false]
    exact ⟨le_max_left _ _, max_le (by norm_num) (min_le_left _ _)⟩
  | nan => simp [isNaN]
  | posInf => simp [isNaN, isFinite]
  | negInf => simp [isNaN, isFinite]

theorem getValidScoreCall_of_convert {score : ScoreField} {v : JSValue}
    (h : score.convert = some v) : getValidScoreCall score = some (getValidScore v) := by
  simp only [getValidScoreCall, h]

theorem getValidScoreCall_of_throw {score : ScoreField}
    (h : score.convert = none) : getValidScoreCall score = none := by
  simp only [getValidScoreCall, h]

/-- A plain object converts to text exactly when it has no own property named
`toString`. -/
theorem objectToString_eq_none_iff (fields : List (String × JSValue)) :
    objectToString fields = none ↔ (fields.lookup "toString").isSome = true := by
  unfold objectToString
  cases h1 : fields.lookup "toString" with
  | none => simp
  | some a => cases h2 : fields.lookup "valueOf" <;> simp

/-- C1 (counterexample): the JSON score `{"toString":0}` has an own property
`toString` that is not callable, so its conversion to text throws and the call
of `getValidScore` returns no integer. -/
theorem unprintable_score_throws :
    objectToString [("toString", .number (.finite 0))] = none ∧
      getValidScoreCall (.object [("toString", .number (.finite 0))]) = none ∧
      ¬ ∃ p : Int,
        getValidScoreCall (.object [("toString", .number (.finite 0))]) = some p ∧
          5 ≤ p ∧ p ≤ 100 := by
  have hthrow : getValidScoreCall (.object [("toString", .number (.finite 0))]) = none := rfl
  refine ⟨rfl, hthrow, ?_⟩
  rintro ⟨p, hp, _⟩
  rw [hthrow] at hp
  exact Option.noConfusion hp

/-- C1 (amended): for every score whose conversion to text succeeds, and so
for every missing, null, boolean, textual or numeric score (negative,
fractional, above 100, `NaN` or infinite), the call of `getValidScore` returns
an integer `p` with `5 <= p <= 100`; the call returns nothing exactly when the
conversion throws, which for a plain object is when it has an own property
`toString`. -/
theorem getValidScoreCall_range :
    (∀ (score : ScoreField) (v : JSValue), score.convert = some v →
      ∃ p : Int, getValidScoreCall score = some p ∧ 5 ≤ p ∧ p ≤ 100) ∧
    (∀ v : JSValue,
      getValidScoreCall (.value v) = some (getValidScore v) ∧
        5 ≤ getValidScore v ∧ getValidScore v ≤ 100) ∧
    (∀ score : ScoreField, getValidScoreCall score = none ↔ score.convert = none) ∧
    (∀ fields : List (String × JSValue),
      getValidScoreCall (.object fields) = none ↔
        (fields.lookup "toString").isSome = true) := by
  have hnone : ∀ score : ScoreField,
      getValidScoreCall score = none ↔ score.convert = none := by
    intro score
    constructor
    · intro h
      cases hc : score.convert with
      | none => rfl
      | some v =>
        rw [getValidScoreCall_of_convert hc] at h
        exact Option.noConfusion h
    · exact getValidScoreCall_of_throw
  refine ⟨?_, ?_, hnone, ?_⟩
  · intro score v h
    exact ⟨getValidScore v, getValidScoreCall_of_convert h, getValidScore_range v⟩
  · intro v
    exact ⟨rfl, getValidScore_range v⟩
  · intro fields
    rw [hnone, ← objectToString_eq_none_iff]
    simp only [ScoreField.convert]
    cases objectToString fields <;> simp

/-- C1 (witness): the JSON score `{"value":85}` has no own `toString`; it
converts to `[object Object]`, which parses to `NaN`, and is displayed as
30. -/
theorem getValidScoreCall_range_witness :
    (ScoreField.object [("value", .number (.finite 85))]).convert =
        some (.other "[object Object]") ∧
      (∃ p : Int,
        getValidScoreCall (.object [("value", .number (.finite 85))]) = some p ∧
          5 ≤ p ∧ p ≤ 100) ∧
      getValidScoreCall (.object [("value", .number (.finite 85))]) = some 30 :=
  ⟨rfl,
    getValidScoreCall_range.1 (.object [("value", .number (.finite 85))])
      (.other "[object Object]") rfl,
    by decide!⟩

/-- C6: `getScoreStyle` is determined by `p = getValidScore score` alone: high
iff `p >= 80`, medium iff `60 <= p < 80`, low iff `40 <= p < 60`, very-low iff
`p < 40`; the class returned is the one whose legend range contains `p`, and
every integer of `5..100` lies in the legend range of exactly one class. -/
theorem getScoreStyle_bands :
    (∀ score : JSValue,
      (getScoreStyle score = .scoreHigh ↔ 80 ≤ getValidScore score) ∧
      (getScoreStyle score = .scoreMedium ↔
        60 ≤ getValidScore score ∧ getValidScore score < 80) ∧
      (getScoreStyle score = .scoreLow ↔
        40 ≤ getValidScore score ∧ getValidScore score < 60) ∧
      (getScoreStyle score = .scoreVeryLow ↔ getValidScore score < 40) ∧
      (∀ c : ScoreClass,
        getScoreStyle score = c ↔ legendRange c (getValidScore score) = true)) ∧
    (∀ p : Int, 5 ≤ p → p ≤ 100 → ∃! c : ScoreClass, legendRange c p = true) := by
  constructor
  · intro score
    generalize hp : getValidScore score = p
    have hs : getScoreStyle score = classification p := by
      rw [getScoreStyle_eq_classification, hp]
    rw [hs]
    unfold classification
    refine ⟨?_, ?_, ?_, ?_, ?_⟩
    · split_ifs <;> simp <;> omega
    · split_ifs <;> simp <;> omega
    · split_ifs <;> simp <;> omega
    · split_ifs <;> simp <;> omega
    · intro c
      cases c <;> simp only [legendRange] <;> split_ifs <;> simp <;> omega
  · intro p _ _
    by_cases h80 : 80 ≤ p
    · refine ⟨.scoreHigh, by simp [legendRange, h80], ?_⟩
      intro c hc
      cases c <;> simp [legendRange] at hc ⊢ <;> omega
    · by_cases h60 : 60 ≤ p
      · refine ⟨.scoreMedium, by simp [legendRange]; omega, ?_⟩
        intro c hc
        cases c <;> simp [legendRange] at hc ⊢ <;> omega
      · by_cases h40 : 40 ≤ p
        · refine ⟨.scoreLow, by simp [legendRange]; omega, ?_⟩
          intro c hc
          cases c <;> simp [legendRange] at hc ⊢ <;> omega
        · refine ⟨.scoreVeryLow, by simp [legendRange]; omega, ?_⟩
          intro c hc
          cases c <;> simp [legendRange] at hc ⊢ <;> omega

/-- C7 (counterexample): the score `null` coerces to `NaN` and is displayed as
30, whose class is very-low, not low. -/
theorem null_score_not_low :
    isFinite (coerce .null) = false ∧ getValidScore .null = 30 ∧
      getScoreStyle .null = .scoreVeryLow ∧ getScoreStyle .null ≠ .scoreLow := by
  decide!

/-- C7 (amended): every raw score whose coerced numeric value is not a finite
number is displayed as 30 and classified very-low. -/
theorem fallback_score (score : JSValue) (h : isFinite (coerce score) = false) :
    getValidScore score = 30 ∧ getScoreStyle score = .scoreVeryLow := by
  have h30 := getValidScore_of_not_finite score h
  refine ⟨h30, ?_⟩
  rw [getScoreStyle_eq_classification, h30]
  decide

/-- C7 (witness): the text `abc` has no digits and falls back to 30,
very-low; so do `null`, a missing score, `NaN` and the infinities. -/
theorem fallback_score_witness :
    (isFinite (coerce (.string "abc")) = false ∧
      getValidScore (.string "abc") = 30 ∧
      getScoreStyle (.string "abc") = .scoreVeryLow) ∧
    ∀ v ∈ [JSValue.null, .undefined, .number .nan, .number .posInf, .number .negInf,
        .string "Infinity", .string "."],
      isFinite (coerce v) = false ∧ getValidScore v = 30 ∧
        getScoreStyle v = .scoreVeryLow :=
  ⟨⟨by decide!, fallback_score (.string "abc") (by decide!)⟩, by decide!⟩

/-- C8: for every integer `n` with `2 <= n <= 100`, the text made of the
decimal digits of `n` followed by `%` is displayed as `max 5 n` with the
classification of that percentage; `85%` gives 85 and high, `70%` gives 70 and
medium, `42%` gives 42 and low. -/
theorem percent_text_score :
    (∀ n : Nat, 2 ≤ n → n ≤ 100 →
      getValidScore (.string (toString n ++ "%")) = max 5 (n : Int) ∧
      getScoreStyle (.string (toString n ++ "%")) = classification (max 5 (n : Int))) ∧
    (getValidScore (.string "85%") = 85 ∧ getScoreStyle (.string "85%") = .scoreHigh) ∧
    (getValidScore (.string "70%") = 70 ∧ getScoreStyle (.string "70%") = .scoreMedium) ∧
    (getValidScore (.string "42%") = 42 ∧ getScoreStyle (.string "42%") = .scoreLow) := by
  refine ⟨?_, by decide!, by decide!, by decide!⟩
  intro n h2 h100
  have h := percent_text_table ⟨n, by omega⟩ h2
  simp only at h
  exact ⟨h, by rw [getScoreStyle_eq_classification, h]⟩

/-- C8 (witness): the text `57%` is displayed as 57, class low. -/
theorem percent_text_score_witness :
    2 ≤ 57 ∧ 57 ≤ 100 ∧
      getValidScore (.string (toString 57 ++ "%")) = max 5 ((57 : Nat) : Int) ∧
      getScoreStyle (.string (toString 57 ++ "%")) = classification (max 5 ((57 : Nat) : Int)) :=
  ⟨by decide, by decide, percent_text_score.1 57 (by decide) (by decide)⟩

/-- C9: for every finite numeric score `x > 100`, `getValidScore` returns 100
and `getScoreStyle` returns high. -/
theorem above_hundred_score (x : ℚ) (h : 100 < x) :
    getValidScore (.number (.finite x)) = 100 ∧
      getScoreStyle (.number (.finite x)) = .scoreHigh := by
  have h100 : getValidScore (.number (.finite x)) = 100 := by
    rw [getValidScore_number_finite]
    have h0 : ¬ x < 0 := by linarith
    have h1 : x > 1 := by linarith
    have h2 : ¬ x ≤ 100 := by linarith
    simp only [h0, h1, h2, if_true, if_false, one_mul, roundToDouble_hundred]
    norm_num [mathRound]
  refine ⟨h100, ?_⟩
  rw [getScoreStyle_eq_classification, h100]
  decide

/-- C9 (witness): the score 150 is displayed as 100, class high. -/
theorem above_hundred_score_witness :
    (100 : ℚ) < 150 ∧ getValidScore (.number (.finite 150)) = 100 ∧
      getScoreStyle (.number (.finite 150)) = .scoreHigh :=
  ⟨by norm_num, above_hundred_score 150 (by norm_num)⟩

/-- C10: for every numeric score `x` with `0 <= x <= 1` the value is used
unchanged: `getValidScore x = max 5 k` where `k` is the product `x * 100` (as
the code computes it, a binary64 value) rounded half-up to the nearest integer
(`k - 1/2 <= x * 100 < k + 1/2`); 0.05 gives 5 (very-low), 0.65 gives 65
(medium), 0.9 gives 90 (high) and 1 gives 100. -/
theorem unit_interval_score :
    (∀ x : ℚ, 0 ≤ x → x ≤ 1 →
      ∃ k : Int, (k : ℚ) - 1 / 2 ≤ roundToDouble (x * 100) ∧
        roundToDouble (x * 100) < (k : ℚ) + 1 / 2 ∧
        getValidScore (.number (.finite x)) = max 5 k ∧
        getScoreStyle (.number (.finite x)) = classification (max 5 k)) ∧
    (getValidScore (.number (.finite (roundToDouble (5 / 100)))) = 5 ∧
      getScoreStyle (.number (.finite (roundToDouble (5 / 100)))) = .scoreVeryLow) ∧
    (getValidScore (.number (.finite (roundToDouble (65 / 100)))) = 65 ∧
      getScoreStyle (.number (.finite (roundToDouble (65 / 100)))) = .scoreMedium) ∧
    (getValidScore (.number (.finite (roundToDouble (9 / 10)))) = 90 ∧
      getScoreStyle (.number (.finite (roundToDouble (9 / 10)))) = .scoreHigh) ∧
    getValidScore (.number (.finite 1)) = 100 := by
  refine ⟨?_, by decide!, by decide!, by decide!, by decide!⟩
  intro x h0 h1
  have hprod : roundToDouble (x * 100) ≤ 100 := by
    have := @roundToDouble_mono (x * 100) 100 (by linarith) (by linarith)
    rwa [roundToDouble_hundred] at this
  have hfl : (⌊roundToDouble (x * 100) + 1 / 2⌋ : Int) ≤ 100 := by
    have h101 : roundToDouble (x * 100) + 1 / 2 < ((101 : Int) : ℚ) := by
      push_cast; linarith
    have := Int.floor_lt.mpr h101
    omega
  have hv : getValidScore (.number (.finite x)) =
      max 5 ⌊roundToDouble (x * 100) + 1 / 2⌋ := by
    rw [getValidScore_unit h0 h1, mathRound, min_eq_right hfl]
  refine ⟨⌊roundToDouble (x * 100) + 1 / 2⌋, ?_, ?_, hv, ?_⟩
  · have := Int.floor_le (roundToDouble (x * 100) + 1 / 2)
    linarith
  · have := Int.lt_floor_add_one (roundToDouble (x * 100) + 1 / 2)
    linarith
  · rw [getScoreStyle_eq_classification, hv]

/-- C10 (witness): the score 0.625 is displayed as 63 (62.5 rounded half
up). -/
theorem unit_interval_score_witness :
    (0 : ℚ) ≤ 5 / 8 ∧ (5 / 8 : ℚ) ≤ 1 ∧
      (∃ k : Int, (k : ℚ) - 1 / 2 ≤ roundToDouble (5 / 8 * 100) ∧
        roundToDouble (5 / 8 * 100) < (k : ℚ) + 1 / 2 ∧
        getValidScore (.number (.finite (5 / 8))) = max 5 k ∧
        getScoreStyle (.number (.finite (5 / 8))) = classification (max 5 k)) ∧
      getValidScore (.number (.finite (5 / 8))) = 63 :=
  ⟨by norm_num, by norm_num, unit_interval_score.1 (5 / 8) (by norm_num) (by norm_num),
    by decide!⟩

/-! ### Numeric ranges, text scores and idempotence -/

theorem getValidScore_bounds (score : JSValue) :
    5 ≤ getValidScore score ∧ getValidScore score ≤ 100 := by
  unfold getValidScore
  generalize coerce score = num
  cases num with
  | finite q =>
    simp only [isNaN, isFinite, Bool.not_true, Bool.or_self, Bool.false_eq_true, if_false]
    exact ⟨le_max_left _ _, max_le (by norm_num) (min_le_left _ _)⟩
  | nan => simp [isNaN]
  | posInf => simp [isNaN, isFinite]
  | negInf => simp [isNaN, isFinite]

theorem getValidScore_above {x : ℚ} (h : 100 < x) :
    getValidScore (.number (.finite x)) = 100 := by
  rw [getValidScore_number_finite]
  have h0 : ¬ x < 0 := by linarith
  have h1 : x > 1 := by linarith
  have h2 : ¬ x ≤ 100 := by linarith
  simp only [h0, h1, h2, if_true, if_false, one_mul, roundToDouble_hundred]
  norm_num [mathRound]

theorem getValidScore_negative {x : ℚ} (h : x < 0) :
    getValidScore (.number (.finite x)) = 5 := by
  rw [getValidScore_number_finite]
  have h1 : ¬ (0 : ℚ) > 1 := by norm_num
  simp only [h, h1, if_true, if_false, zero_mul, roundToDouble_zero]
  norm_num [mathRound]

set_option maxRecDepth 100000 in
theorem integer_score_table :
    ∀ n : Fin 101, 5 ≤ n.val →
      getValidScore (.number (.finite ((n.val : Int) : ℚ))) = (n.val : Int) := by
  decide!

/-- C11 (failing input): 14.5 is a binary64 value in `(1, 100]`; the code
displays it as 14, while 14.5 rounded half-up is 15. -/
theorem half_percent_rounds_down :
    roundToDouble (29 / 2) = 29 / 2 ∧ (1 : ℚ) < 29 / 2 ∧ (29 / 2 : ℚ) ≤ 100 ∧
      roundToDouble (29 / 2 / 100) * 100 < 29 / 2 ∧
      getValidScore (.number (.finite (29 / 2))) = 14 ∧
      max 5 (mathRound (29 / 2)) = 15 := by
  decide!

/-- C12: every finite negative numeric score is clamped to 0 and then raised
to the presentation minimum: `getValidScore` gives 5 and `getScoreStyle`
very-low. -/
theorem negative_score (x : ℚ) (h : x < 0) :
    getValidScore (.number (.finite x)) = 5 ∧
      getScoreStyle (.number (.finite x)) = .scoreVeryLow := by
  have h5 := getValidScore_negative h
  refine ⟨h5, ?_⟩
  rw [getScoreStyle_eq_classification, h5]
  decide

/-- C12 (witness): the score -5 is displayed as 5, class very-low. -/
theorem negative_score_witness :
    (-5 : ℚ) < 0 ∧ getValidScore (.number (.finite (-5))) = 5 ∧
      getScoreStyle (.number (.finite (-5))) = .scoreVeryLow :=
  ⟨by norm_num, negative_score (-5) (by norm_num)⟩

/-- C18: `getValidScore` is idempotent on its own output, and the class of the
displayed percentage is the class of the score. -/
theorem getValidScore_idempotent (score : JSValue) :
    getValidScore (.number (.finite ((getValidScore score : Int) : ℚ))) = getValidScore score ∧
      getScoreStyle (.number (.finite ((getValidScore score : Int) : ℚ))) =
        getScoreStyle score := by
  rw [getScoreStyle_eq_classification, getScoreStyle_eq_classification score]
  obtain ⟨h5, h100⟩ := getValidScore_bounds score
  generalize getValidScore score = p at h5 h100 ⊢
  obtain ⟨n, rfl⟩ := Int.eq_ofNat_of_zero_le (by omega : 0 ≤ p)
  have h := integer_score_table ⟨n, by omega⟩ (by simp only; omega)
  simp only at h
  rw [h]
  exact ⟨rfl, rfl⟩

/-- The displayed percentages 5, 30 and 100 are displayed unchanged when fed
back as scores. -/
theorem getValidScore_idempotent_examples :
    getValidScore (.number (.finite 5)) = 5 ∧ getValidScore (.number (.finite 30)) = 30 ∧
      getValidScore (.number (.finite 100)) = 100 := by
  decide!

theorem isDecimalDigit_or_dot_iff (c : Char) :
    (isDecimalDigit c || decide (c = '.')) = true ↔
      c ∈ ['0', '1', '2', '3', '4', '5', '6', '7', '8', '9', '.'] := by
  constructor
  · intro h
    rcases Bool.or_eq_true_iff.mp h with hd | hdot
    · simp only [isDecimalDigit, Bool.and_eq_true, decide_eq_true_eq] at hd
      have h1 : 48 ≤ c.toNat := hd.1
      have h2 : c.toNat ≤ 57 := hd.2
      have hc : c = Char.ofNat c.toNat := (Char.ofNat_toNat c).symm
      rw [hc]
      interval_cases c.toNat <;> decide
    · simp only [decide_eq_true_eq] at hdot
      subst hdot
      decide
  · intro h
    simp only [List.mem_cons, List.mem_singleton, List.not_mem_nil, or_false] at h
    rcases h with rfl | rfl | rfl | rfl | rfl | rfl | rfl | rfl | rfl | rfl | rfl <;> decide

theorem filter_eq_stripNonNumeric (cs : List Char) :
    cs.filter (fun c => isDecimalDigit c || c = '.') = stripNonNumeric cs := by
  induction cs with
  | nil => rfl
  | cons c rest ih =>
    by_cases h : c ∈ ['0', '1', '2', '3', '4', '5', '6', '7', '8', '9', '.']
    · have hb := (isDecimalDigit_or_dot_iff c).mpr h
      rw [List.filter_cons, if_pos hb, stripNonNumeric, if_pos h, ih]
    · have hb : ¬ (isDecimalDigit c || decide (c = '.')) = true :=
        fun hb => h ((isDecimalDigit_or_dot_iff c).mp hb)
      rw [List.filter_cons, if_neg hb, stripNonNumeric, if_neg h, ih]

theorem stripNonNumeric_idem (cs : List Char) :
    stripNonNumeric (stripNonNumeric cs) = stripNonNumeric cs := by
  rw [← filter_eq_stripNonNumeric, ← filter_eq_stripNonNumeric, List.filter_filter]
  simp

/-- C16: for every textual score `s`, `getValidScore s` is `getValidScore s'`
where `s'` is `s` with every character other than the digits and `.` removed;
two texts with the same digits and dots get the same result, whatever signs,
percent signs, letters or exponent markers they contain; the text `-0.5` gives
50 while the number -0.5 gives 5. -/
theorem text_score_strips_non_numeric :
    (∀ s : String,
      getValidScore (.string s) = getValidScore (.string (String.mk (stripNonNumeric s.toList)))) ∧
    (∀ s t : String, stripNonNumeric s.toList = stripNonNumeric t.toList →
      getValidScore (.string s) = getValidScore (.string t)) ∧
    (getValidScore (.string "-0.5") = 50 ∧ getValidScore (.number (.finite (-1 / 2))) = 5) ∧
    (getValidScore (.string "+8e1%") = 81 ∧ getValidScore (.string "81") = 81) := by
  have hkey : ∀ s t : String, stripNonNumeric s.toList = stripNonNumeric t.toList →
      getValidScore (.string s) = getValidScore (.string t) := by
    intro s t h
    have hc : cleanScore s = cleanScore t := by
      simp only [cleanScore, filter_eq_stripNonNumeric, h]
    simp only [getValidScore, coerce, hc]
  refine ⟨?_, hkey, by decide!, by decide!⟩
  intro s
  apply hkey
  simp only [String.toList, stripNonNumeric_idem]

/-- C16 (witness): `a4b2%` and `42` have the same digits, so the same
result. -/
theorem text_score_strips_non_numeric_witness :
    stripNonNumeric "a4b2%".toList = stripNonNumeric "42".toList ∧
      getValidScore (.string "a4b2%") = getValidScore (.string "42") :=
  ⟨by decide, text_score_strips_non_numeric.2.1 "a4b2%" "42" (by decide)⟩

theorem ulpExponent_of_binade {x : ℚ} {e : Int} (hlo : (2 : ℚ) ^ e ≤ x)
    (hhi : x < (2 : ℚ) ^ (e + 1)) (he : -1022 ≤ e) : ulpExponent x = e - 52 := by
  have hpos : 0 < x := lt_of_lt_of_le (two_zpow_pos e) hlo
  have h1 : e ≤ Int.log 2 x :=
    (Int.zpow_le_iff_le_log (b := 2) (by norm_num) hpos).mp (by exact_mod_cast hlo)
  have h2 : Int.log 2 x < e + 1 :=
    (Int.lt_zpow_iff_log_lt (b := 2) (by norm_num) hpos).mp (by exact_mod_cast hhi)
  unfold ulpExponent
  rw [abs_of_pos hpos]
  omega

/-- The binary64 value just below 5.5. -/
theorem double_below_five_and_half {x : ℚ} (hd : roundToDouble x = x) (h : x < 11 / 2) :
    x ≤ 11 / 2 - 2 ^ (-50 : Int) := by
  by_cases h4 : x < 4
  · have : (2 : ℚ) ^ (-50 : Int) ≤ 1 := zpow_le_one_of_nonpos₀ (by norm_num) (by norm_num)
    linarith
  · push_neg at h4
    have hk : ulpExponent x = -50 := by
      have := ulpExponent_of_binade (x := x) (e := 2) (by norm_num; linarith)
        (by norm_num; linarith) (by norm_num)
      omega
    unfold roundToDouble at hd
    rw [hk] at hd
    set n : Int := roundHalfEven (x / 2 ^ (-50 : Int)) with hn
    have hu : (0 : ℚ) < 2 ^ (-50 : Int) := two_zpow_pos _
    have hgrid : (11 / 2 : ℚ) = ((11 * 2 ^ 49 : Int) : ℚ) * 2 ^ (-50 : Int) := by
      norm_num
    have hlt : (n : ℚ) * 2 ^ (-50 : Int) < ((11 * 2 ^ 49 : Int) : ℚ) * 2 ^ (-50 : Int) := by
      rw [hd, ← hgrid]; exact h
    have hn_lt : n < 11 * 2 ^ 49 := by
      have := lt_of_mul_lt_mul_right hlt hu.le
      exact_mod_cast this
    have hn_le : (n : ℚ) ≤ ((11 * 2 ^ 49 - 1 : Int) : ℚ) := by
      exact_mod_cast (by omega : n ≤ 11 * 2 ^ 49 - 1)
    calc x = (n : ℚ) * 2 ^ (-50 : Int) := hd.symm
      _ ≤ ((11 * 2 ^ 49 - 1 : Int) : ℚ) * 2 ^ (-50 : Int) :=
          mul_le_mul_of_nonneg_right hn_le hu.le
      _ = 11 / 2 - 2 ^ (-50 : Int) := by
          norm_num

theorem percent_round_trip_mono {x y : ℚ} (hx : 0 ≤ x) (h : x ≤ y) :
    roundToDouble (roundToDouble (x / 100) * 100) ≤
      roundToDouble (roundToDouble (y / 100) * 100) := by
  have h1 : roundToDouble (x / 100) ≤ roundToDouble (y / 100) :=
    roundToDouble_mono (by positivity) (by linarith)
  have h0 : 0 ≤ roundToDouble (x / 100) := roundToDouble_nonneg (by positivity)
  exact roundToDouble_mono (by positivity) (by linarith)

theorem round_trip_below_five_and_half :
    roundToDouble (roundToDouble ((11 / 2 - 2 ^ (-50 : Int)) / 100) * 100) + 1 / 2 < 6 := by
  decide!

/-- C19: `getValidScore` is not monotone in a numeric score: 1 gives 100,
while every binary64 `x` with `1 < x < 5.5` gives 5; on `[0, 1]` and on
`(1, infinity)` taken separately it is monotone non-decreasing. -/
theorem getValidScore_monotone_pieces :
    getValidScore (.number (.finite 1)) = 100 ∧
    (∀ x : ℚ, roundToDouble x = x → 1 < x → x < 11 / 2 →
      getValidScore (.number (.finite x)) = 5) ∧
    (∀ x y : ℚ, 0 ≤ x → x ≤ y → y ≤ 1 →
      getValidScore (.number (.finite x)) ≤ getValidScore (.number (.finite y))) ∧
    (∀ x y : ℚ, 1 < x → x ≤ y →
      getValidScore (.number (.finite x)) ≤ getValidScore (.number (.finite y))) := by
  refine ⟨by decide!, ?_, ?_, ?_⟩
  · intro x hd h1 h55
    have hx0 := double_below_five_and_half hd h55
    have hu : (0 : ℚ) < 2 ^ (-50 : Int) := two_zpow_pos _
    rw [getValidScore_percent h1 (by linarith)]
    have hmono := percent_round_trip_mono (by linarith : (0 : ℚ) ≤ x) hx0
    have hlt : roundToDouble (roundToDouble (x / 100) * 100) + 1 / 2 < ((6 : Int) : ℚ) := by
      have := round_trip_below_five_and_half
      push_cast
      linarith
    have hfl : mathRound (roundToDouble (roundToDouble (x / 100) * 100)) < 6 :=
      Int.floor_lt.mpr hlt
    omega
  · intro x y h0 hxy h1
    rw [getValidScore_unit h0 (by linarith), getValidScore_unit (by linarith) h1]
    have := mathRound_mono (roundToDouble_mono (by positivity) (by linarith :
      x * 100 ≤ y * 100))
    omega
  · intro x y h1 hxy
    by_cases hy : y ≤ 100
    · rw [getValidScore_percent h1 (by linarith), getValidScore_percent (by linarith) hy]
      have := mathRound_mono (percent_round_trip_mono (by linarith : (0 : ℚ) ≤ x) hxy)
      omega
    · rw [getValidScore_above (by linarith : 100 < y)]
      exact (getValidScore_bounds _).2

/-- C19 (witness): 3 is a binary64 value between 1 and 5.5 and is displayed
as 5, below the 100 displayed for 1. -/
theorem getValidScore_monotone_pieces_witness :
    roundToDouble 3 = 3 ∧ (1 : ℚ) < 3 ∧ (3 : ℚ) < 11 / 2 ∧
      getValidScore (.number (.finite 3)) = 5 :=
  ⟨by decide!, by norm_num, by norm_num,
    getValidScore_monotone_pieces.2.1 3 (by decide!) (by norm_num) (by norm_num)⟩

/-! ## Facts about the tree rendering -/

theorem mapRender_eq_none {f : Node → Option RenderTree} {l : List Node}
    (h : mapRender f l = none) : ∃ c ∈ l, f c = none := by
  induction l with
  | nil => simp [mapRender] at h
  | cons c rest ih =>
    cases hc : f c with
    | none => exact ⟨c, List.mem_cons_self _ _, hc⟩
    | some t =>
      cases hr : mapRender f rest with
      | none =>
        obtain ⟨d, hd, hfd⟩ := ih hr
        exact ⟨d, List.mem_cons_of_mem _ hd, hfd⟩
      | some ts => simp [mapRender, hc, hr] at h

theorem mapRender_eq_some {f : Node → Option RenderTree} {l : List Node}
    {ts : List RenderTree} (h : mapRender f l = some ts) :
    List.Forall₂ (fun c t => f c = some t) l ts := by
  induction l generalizing ts with
  | nil =>
    simp [mapRender] at h
    subst h
    exact List.Forall₂.nil
  | cons c rest ih =>
    cases hc : f c with
    | none => simp [mapRender, hc] at h
    | some t =>
      cases hr : mapRender f rest with
      | none => simp [mapRender, hc, hr] at h
      | some us =>
        simp [mapRender, hc, hr] at h
        subst h
        exact List.Forall₂.cons hc (ih hr)

theorem mapRender_of_forall {f : Node → Option RenderTree} {l : List Node}
    (h : ∀ c ∈ l, ∃ t, f c = some t) : ∃ ts, mapRender f l = some ts := by
  induction l with
  | nil => exact ⟨[], rfl⟩
  | cons c rest ih =>
    obtain ⟨t, ht⟩ := h c (List.mem_cons_self _ _)
    obtain ⟨ts, hts⟩ := ih (fun d hd => h d (List.mem_cons_of_mem _ hd))
    exact ⟨t :: ts, by simp [mapRender, ht, hts]⟩

theorem childNodes_eq_scanChildren (nodes : List Node) (node : Node) (edges : List Edge) :
    childNodes nodes node edges = scanChildren nodes node.id edges := by
  unfold childNodes
  induction edges with
  | nil => simp [scanChildren]
  | cons edge rest ih =>
    simp only at ih
    by_cases hs : edge.source = node.id
    · cases hf : nodes.find? (fun n => n.id = edge.target) with
      | none => simp [scanChildren, hs, hf, List.filter_cons, ih]
      | some n => simp [scanChildren, hs, hf, List.filter_cons, ih]
    · simp [scanChildren, hs, List.filter_cons, ih]

theorem mem_scanChildren {nodes : List Node} {id : Ident} {edges : List Edge} {c : Node}
    (h : c ∈ scanChildren nodes id edges) :
    c ∈ nodes ∧ ∃ edge ∈ edges, edge.source = id ∧ edge.target = c.id := by
  induction edges with
  | nil => simp [scanChildren] at h
  | cons edge rest ih =>
    unfold scanChildren at h
    split at h
    · next hs =>
      split at h
      · next n hf =>
        rcases List.mem_cons.mp h with hcn | hrest
        · subst hcn
          have hid := List.find?_some hf
          simp only [decide_eq_true_eq] at hid
          exact ⟨List.mem_of_find?_eq_some hf, edge, List.mem_cons_self _ _, hs, hid.symm⟩
        · obtain ⟨h1, e, he, h2, h3⟩ := ih hrest
          exact ⟨h1, e, List.mem_cons_of_mem _ he, h2, h3⟩
      · obtain ⟨h1, e, he, h2, h3⟩ := ih h
        exact ⟨h1, e, List.mem_cons_of_mem _ he, h2, h3⟩
    · obtain ⟨h1, e, he, h2, h3⟩ := ih h
      exact ⟨h1, e, List.mem_cons_of_mem _ he, h2, h3⟩

theorem childStep_of_mem_childNodes {nodes : List Node} {node c : Node} {edges : List Edge}
    (h : c ∈ childNodes nodes node edges) : ChildStep nodes edges node.id c.id := by
  rw [childNodes_eq_scanChildren] at h
  obtain ⟨hc, e, he, hs, ht⟩ := mem_scanChildren h
  exact ⟨e, he, hs, ht, c, hc, rfl⟩

theorem renderMindMapNode_some {nodes : List Node} {fuel : Nat} {node : Node}
    {edges : List Edge} {level : Nat} {t : RenderTree}
    (h : renderMindMapNode nodes fuel node edges level = some t) :
    ∃ fuel' children, fuel = fuel' + 1 ∧
      t = .mk node level (getValidScore node.score) (getScoreStyle node.score) children ∧
      List.Forall₂ (fun c s => renderMindMapNode nodes fuel' c edges (level + 1) = some s)
        (childNodes nodes node edges) children := by
  cases fuel with
  | zero => simp [renderMindMapNode] at h
  | succ fuel' =>
    simp only [renderMindMapNode] at h
    split at h
    · simp at h
    · next children hm =>
      simp only [Option.some.injEq] at h
      exact ⟨fuel', children, rfl, h.symm, mapRender_eq_some hm⟩

theorem renderMindMapNode_node_level {nodes : List Node} {fuel : Nat} {node : Node}
    {edges : List Edge} {level : Nat} {t : RenderTree}
    (h : renderMindMapNode nodes fuel node edges level = some t) :
    t.node = node ∧ t.level = level := by
  obtain ⟨_, children, _, ht, _⟩ := renderMindMapNode_some h
  subst ht
  exact ⟨rfl, rfl⟩

theorem render_children_nodes {nodes : List Node} {fuel : Nat} {edges : List Edge}
    {level : Nat} {cs : List Node} {ts : List RenderTree}
    (h : List.Forall₂ (fun c s => renderMindMapNode nodes fuel c edges level = some s) cs ts) :
    ts.map RenderTree.node = cs := by
  induction h with
  | nil => rfl
  | cons hc _ ih =>
    simp only [List.map_cons, ih, (renderMindMapNode_node_level hc).1]

theorem mem_subtreesList {s : RenderTree} {ts : List RenderTree} :
    s ∈ subtreesList ts ↔ ∃ t ∈ ts, s ∈ t.subtrees := by
  induction ts with
  | nil => simp [subtreesList]
  | cons t rest ih => simp [subtreesList, ih]

theorem mem_pathsList {p : List Ident} {ts : List RenderTree} :
    p ∈ pathsList ts ↔ ∃ t ∈ ts, p ∈ t.paths := by
  induction ts with
  | nil => simp [pathsList]
  | cons t rest ih => simp [pathsList, ih]

theorem exists_left_of_mem_right {α β : Type} {R : α → β → Prop} {l : List α} {m : List β}
    (h : List.Forall₂ R l m) {b : β} (hb : b ∈ m) : ∃ a ∈ l, R a b := by
  induction h with
  | nil => simp at hb
  | cons hab _ ih =>
    rcases List.mem_cons.mp hb with rfl | hb'
    · exact ⟨_, List.mem_cons_self _ _, hab⟩
    · obtain ⟨a, ha, hr⟩ := ih hb'
      exact ⟨a, List.mem_cons_of_mem _ ha, hr⟩

theorem subtree_children_scan (nodes : List Node) (edges : List Edge) :
    ∀ (fuel : Nat) (node : Node) (level : Nat) (t : RenderTree),
      renderMindMapNode nodes fuel node edges level = some t →
      ∀ s ∈ t.subtrees,
        s.children.map RenderTree.node = scanChildren nodes s.node.id edges := by
  intro fuel
  induction fuel with
  | zero =>
    intro node level t h
    simp [renderMindMapNode] at h
  | succ fuel ih =>
    intro node level t h s hs
    obtain ⟨fuel', children, hf, ht, hall⟩ := renderMindMapNode_some h
    have hfuel : fuel' = fuel := by omega
    subst hfuel
    subst ht
    simp only [RenderTree.subtrees, List.mem_cons] at hs
    rcases hs with rfl | hs
    · simp only [RenderTree.children, RenderTree.node]
      rw [render_children_nodes hall, childNodes_eq_scanChildren]
    · obtain ⟨t', ht', hst'⟩ := mem_subtreesList.mp hs
      obtain ⟨c, _, hc⟩ := exists_left_of_mem_right hall ht'
      exact ih c (level + 1) t' hc s hst'

/-! ### Chains of resolving edges -/

theorem chain_transGen {α : Type} {R : α → α → Prop} :
    ∀ {l : List α} {a : α}, List.Chain R a l → ∀ b ∈ l, Relation.TransGen R a b := by
  intro l
  induction l with
  | nil => intro a _ b hb; simp at hb
  | cons x rest ih =>
    intro a h b hb
    rw [List.chain_cons] at h
    rcases List.mem_cons.mp hb with rfl | hb'
    · exact Relation.TransGen.single h.1
    · exact Relation.TransGen.head h.1 (ih h.2 b hb')

theorem chain_duplicate_cycle {α : Type} {R : α → α → Prop} :
    ∀ {l : List α} {a : α}, List.Chain R a l → ¬ (a :: l).Nodup →
      ∃ c, Relation.ReflTransGen R a c ∧ Relation.TransGen R c c := by
  intro l
  induction l with
  | nil => intro a _ hn; simp at hn
  | cons x rest ih =>
    intro a h hn
    by_cases ha : a ∈ x :: rest
    · exact ⟨a, Relation.ReflTransGen.refl, chain_transGen h a ha⟩
    · have hrest : ¬ (x :: rest).Nodup := fun hnd => hn (List.nodup_cons.mpr ⟨ha, hnd⟩)
      rw [List.chain_cons] at h
      obtain ⟨c, hreach, hcyc⟩ := ih h.2 hrest
      exact ⟨c, Relation.ReflTransGen.head h.1 hreach, hcyc⟩

theorem chain_subset_ids {nodes : List Node} {edges : List Edge} :
    ∀ {l : List Ident} {a : Ident}, List.Chain (ChildStep nodes edges) a l →
      ∀ b ∈ l, b ∈ nodes.map Node.id := by
  intro l
  induction l with
  | nil => intro a _ b hb; simp at hb
  | cons x rest ih =>
    intro a h b hb
    rw [List.chain_cons] at h
    rcases List.mem_cons.mp hb with rfl | hb'
    · obtain ⟨_, _, _, _, n, hn, hid⟩ := h.1
      exact List.mem_map.mpr ⟨n, hn, hid⟩
    · exact ih h.2 b hb'

theorem chain_of_not_finished (nodes : List Node) (edges : List Edge) :
    ∀ (fuel : Nat) (node : Node) (level : Nat),
      renderMindMapNode nodes fuel node edges level = none →
      ∃ l : List Ident, l.length = fuel ∧ List.Chain (ChildStep nodes edges) node.id l := by
  intro fuel
  induction fuel with
  | zero => intro node level _; exact ⟨[], rfl, List.Chain.nil⟩
  | succ fuel ih =>
    intro node level h
    simp only [renderMindMapNode] at h
    split at h
    · next hm =>
      obtain ⟨c, hc, hnone⟩ := mapRender_eq_none hm
      obtain ⟨l, hlen, hchain⟩ := ih c (level + 1) hnone
      exact ⟨c.id :: l, by simp [hlen],
        List.Chain.cons (childStep_of_mem_childNodes hc) hchain⟩
    · simp at h

theorem finishes_of_no_cycle {nodes : List Node} {edges : List Edge} {root : Node}
    (hroot : root ∈ nodes) (hacyc : ¬ CycleReachable nodes edges root.id)
    {fuel : Nat} (hfuel : nodes.length ≤ fuel) (level : Nat) :
    ∃ t, renderMindMapNode nodes fuel root edges level = some t := by
  cases h : renderMindMapNode nodes fuel root edges level with
  | some t => exact ⟨t, rfl⟩
  | none =>
    exfalso
    obtain ⟨l, hlen, hchain⟩ := chain_of_not_finished nodes edges fuel root level h
    by_cases hnd : (root.id :: l).Nodup
    · have hsub : (root.id :: l) ⊆ nodes.map Node.id := by
        intro b hb
        rcases List.mem_cons.mp hb with rfl | hb'
        · exact List.mem_map.mpr ⟨root, hroot, rfl⟩
        · exact chain_subset_ids hchain b hb'
      have hle := (List.subperm_of_subset hnd hsub).length_le
      simp only [List.length_cons, List.length_map] at hle
      omega
    · exact hacyc (chain_duplicate_cycle hchain hnd)

theorem paths_are_chains (nodes : List Node) (edges : List Edge) :
    ∀ (fuel : Nat) (node : Node) (level : Nat) (t : RenderTree),
      renderMindMapNode nodes fuel node edges level = some t →
      ∀ p ∈ t.paths, ∃ l, p = node.id :: l ∧ List.Chain (ChildStep nodes edges) node.id l := by
  intro fuel
  induction fuel with
  | zero =>
    intro node level t h
    simp [renderMindMapNode] at h
  | succ fuel ih =>
    intro node level t h p hp
    obtain ⟨fuel', children, hf, ht, hall⟩ := renderMindMapNode_some h
    have hfuel : fuel' = fuel := by omega
    subst hfuel
    subst ht
    cases children with
    | nil =>
      simp only [RenderTree.paths, List.mem_singleton] at hp
      exact ⟨[], hp, List.Chain.nil⟩
    | cons c cs =>
      simp only [RenderTree.paths, List.mem_map] at hp
      obtain ⟨q, hq, hpq⟩ := hp
      obtain ⟨t', ht', hqt'⟩ := mem_pathsList.mp hq
      obtain ⟨child, hchild, hrender⟩ := exists_left_of_mem_right hall ht'
      obtain ⟨l, hl, hchain⟩ := ih child (level + 1) t' hrender q hqt'
      refine ⟨child.id :: l, by rw [← hpq, hl], ?_⟩
      exact List.Chain.cons (childStep_of_mem_childNodes hchild) hchain

/-! ### A reachable cycle exhausts every recursion depth -/

theorem mem_scanChildren_of_edge {nodes : List Node} {id : Ident} {c : Node} :
    ∀ {edges : List Edge} {edge : Edge}, edge ∈ edges → edge.source = id →
      nodes.find? (fun n => n.id = edge.target) = some c →
      c ∈ scanChildren nodes id edges := by
  intro edges
  induction edges with
  | nil => intro edge he; simp at he
  | cons e rest ih =>
    intro edge he hs hf
    rcases List.mem_cons.mp he with rfl | he'
    · simp [scanChildren, hs, hf]
    · have hrec := ih he' hs hf
      unfold scanChildren
      split
      · split
        · exact List.mem_cons_of_mem _ hrec
        · exact hrec
      · exact hrec

theorem exists_child_of_childStep {nodes : List Node} {edges : List Edge} {node : Node}
    {b : Ident} (h : ChildStep nodes edges node.id b) :
    ∃ c ∈ childNodes nodes node edges, c.id = b := by
  obtain ⟨edge, he, hs, ht, n, hn, hid⟩ := h
  cases hf : nodes.find? (fun m => m.id = edge.target) with
  | none =>
    rw [List.find?_eq_none] at hf
    exact absurd (by simp [hid, ht]) (hf n hn)
  | some c =>
    have hcid := List.find?_some hf
    simp only [decide_eq_true_eq] at hcid
    refine ⟨c, ?_, hcid.trans ht⟩
    rw [childNodes_eq_scanChildren]
    exact mem_scanChildren_of_edge he hs hf

theorem finishes_any_node (nodes : List Node) (edges : List Edge) :
    ∀ (fuel : Nat) (node : Node) (level : Nat) (t : RenderTree),
      renderMindMapNode nodes fuel node edges level = some t →
      ∀ (node' : Node) (level' : Nat), node'.id = node.id →
        ∃ t', renderMindMapNode nodes fuel node' edges level' = some t' := by
  intro fuel
  induction fuel with
  | zero =>
    intro node level t h
    simp [renderMindMapNode] at h
  | succ fuel ih =>
    intro node level t h node' level' hid
    obtain ⟨fuel', children, hf, _, hall⟩ := renderMindMapNode_some h
    have hfuel : fuel' = fuel := by omega
    subst hfuel
    have hsame : childNodes nodes node' edges = childNodes nodes node edges := by
      rw [childNodes_eq_scanChildren, childNodes_eq_scanChildren, hid]
    have hkids : ∀ c ∈ childNodes nodes node' edges,
        ∃ s, renderMindMapNode nodes fuel' c edges (level' + 1) = some s := by
      intro c hc
      rw [hsame] at hc
      have hts : children.map RenderTree.node = childNodes nodes node edges :=
        render_children_nodes hall
      rw [← hts] at hc
      obtain ⟨s, hs, hsc⟩ := List.mem_map.mp hc
      obtain ⟨c', _, hc'⟩ := exists_left_of_mem_right hall hs
      have hcc : c' = c := by rw [← (renderMindMapNode_node_level hc').1, hsc]
      subst hcc
      exact ih c' (level + 1) s hc' c' (level' + 1) rfl
    obtain ⟨ts, hts⟩ := mapRender_of_forall hkids
    exact ⟨.mk node' level' (getValidScore node'.score) (getScoreStyle node'.score) ts,
      by simp only [renderMindMapNode, hts]⟩

theorem finishesAt_step {nodes : List Node} {edges : List Edge} {fuel : Nat} {a b : Ident}
    (h : FinishesAt nodes edges fuel a) (hstep : ChildStep nodes edges a b) :
    ∃ fuel', fuel' < fuel ∧ FinishesAt nodes edges fuel' b := by
  obtain ⟨node, level, t, hid, hr⟩ := h
  subst hid
  obtain ⟨fuel', children, hf, _, hall⟩ := renderMindMapNode_some hr
  obtain ⟨c, hc, hcb⟩ := exists_child_of_childStep hstep
  have hts : children.map RenderTree.node = childNodes nodes node edges :=
    render_children_nodes hall
  rw [← hts] at hc
  obtain ⟨s, hs, hsc⟩ := List.mem_map.mp hc
  obtain ⟨c', _, hc'⟩ := exists_left_of_mem_right hall hs
  have hcc : c' = c := by rw [← (renderMindMapNode_node_level hc').1, hsc]
  subst hcc
  exact ⟨fuel', by omega, c', level + 1, s, hcb, hc'⟩

theorem finishesAt_transGen {nodes : List Node} {edges : List Edge} {a b : Ident}
    (hpath : Relation.TransGen (ChildStep nodes edges) a b) :
    ∀ fuel, FinishesAt nodes edges fuel a →
      ∃ fuel', fuel' < fuel ∧ FinishesAt nodes edges fuel' b := by
  induction hpath with
  | single hstep => intro fuel h; exact finishesAt_step h hstep
  | tail _ hstep ih =>
    intro fuel h
    obtain ⟨f1, hf1, h1⟩ := ih fuel h
    obtain ⟨f2, hf2, h2⟩ := finishesAt_step h1 hstep
    exact ⟨f2, by omega, h2⟩

theorem not_finishesAt_on_cycle {nodes : List Node} {edges : List Edge} {c : Ident}
    (hcyc : Relation.TransGen (ChildStep nodes edges) c c) :
    ∀ fuel, ¬ FinishesAt nodes edges fuel c := by
  intro fuel
  induction fuel using Nat.strong_induction_on with
  | _ fuel ih =>
    intro h
    obtain ⟨fuel', hlt, h'⟩ := finishesAt_transGen hcyc fuel h
    exact ih fuel' hlt h'

theorem not_finished_of_cycle {nodes : List Node} {edges : List Edge} {root : Node}
    (hcyc : CycleReachable nodes edges root.id) (fuel : Nat) (level : Nat) :
    renderMindMapNode nodes fuel root edges level = none := by
  cases h : renderMindMapNode nodes fuel root edges level with
  | none => rfl
  | some t =>
    exfalso
    obtain ⟨c, hreach, hloop⟩ := hcyc
    have hroot : FinishesAt nodes edges fuel root.id := ⟨root, level, t, rfl, h⟩
    rcases Relation.reflTransGen_iff_eq_or_transGen.mp hreach with heq | htrans
    · rw [heq] at hloop
      exact not_finishesAt_on_cycle hloop fuel hroot
    · obtain ⟨fuel', _, h'⟩ := finishesAt_transGen htrans fuel hroot
      exact not_finishesAt_on_cycle hloop fuel' h'

/-! ### `renderMindMap` -/

theorem renderMindMap_of_root {nodes : List Node} {root : Node}
    (hroot : nodes.find? (fun node => node.level = 0) = some root)
    (edges : List Edge) (fuel : Nat) :
    renderMindMap fuel (some ⟨some nodes, edges⟩) =
      (renderMindMapNode nodes fuel root edges 0).map Rendered.visualization := by
  simp only [renderMindMap, hroot]
  cases renderMindMapNode nodes fuel root edges 0 <;> rfl

theorem renderMindMap_visualization {nodes : List Node} {root : Node}
    (hroot : nodes.find? (fun node => node.level = 0) = some root)
    {edges : List Edge} {fuel : Nat} {tree : RenderTree}
    (h : renderMindMap fuel (some ⟨some nodes, edges⟩) = some (.visualization tree)) :
    renderMindMapNode nodes fuel root edges 0 = some tree := by
  rw [renderMindMap_of_root hroot] at h
  cases hr : renderMindMapNode nodes fuel root edges 0 with
  | none => simp [hr] at h
  | some t =>
    simp only [hr, Option.map_some', Option.some.injEq, Rendered.visualization.injEq] at h
    rw [h]

theorem no_cycle_treeEdges : ¬ CycleReachable scenarioNodes treeEdges (.num 1) := by
  rintro ⟨c, _, hloop⟩
  obtain ⟨_, ⟨e1, he1, hs1, _, _⟩, _⟩ := Relation.TransGen.head'_iff.mp hloop
  obtain ⟨_, _, ⟨e2, he2, _, ht2, _⟩⟩ := Relation.TransGen.tail'_iff.mp hloop
  simp only [treeEdges, List.mem_cons, List.mem_singleton, List.not_mem_nil, or_false] at he1 he2
  rcases he1 with rfl | rfl <;> rcases he2 with rfl | rfl <;>
    simp only at hs1 ht2 <;> rw [← hs1] at ht2 <;> simp at ht2

/-- C2: the root is the first element of `nodes` whose level is 0: the
recursion is started on it at level 0 and a finished tree shows it; the no-root
result is returned if and only if no node has level 0. -/
theorem root_selection (nodes : List Node) (edges : List Edge) (fuel : Nat) :
    (renderMindMap fuel (some ⟨some nodes, edges⟩) = some .noRoot ↔
      ∀ n ∈ nodes, n.level ≠ 0) ∧
    (∀ (pre : List Node) (root : Node) (post : List Node),
      nodes = pre ++ root :: post → root.level = 0 → (∀ n ∈ pre, n.level ≠ 0) →
      renderMindMap fuel (some ⟨some nodes, edges⟩) =
        (renderMindMapNode nodes fuel root edges 0).map Rendered.visualization ∧
      ∀ tree, renderMindMap fuel (some ⟨some nodes, edges⟩) = some (.visualization tree) →
        tree.node = root ∧ tree.level = 0) := by
  constructor
  · cases hf : nodes.find? (fun node => node.level = 0) with
    | none =>
      have hnone := hf
      rw [List.find?_eq_none] at hnone
      simp only [renderMindMap, hf, true_iff]
      intro n hn h0
      exact hnone n hn (by simp [h0])
    | some r =>
      rw [renderMindMap_of_root hf]
      constructor
      · intro h
        cases hr : renderMindMapNode nodes fuel r edges 0 <;> simp [hr] at h
      · intro h
        have h0 := List.find?_some hf
        simp only [decide_eq_true_eq] at h0
        exact absurd h0 (h r (List.mem_of_find?_eq_some hf))
  · intro pre root post hnodes hlevel hpre
    have hf : nodes.find? (fun node => node.level = 0) = some root := by
      rw [List.find?_eq_some]
      refine ⟨by simp [hlevel], pre, post, hnodes, ?_⟩
      intro a ha
      simp [hpre a ha]
    refine ⟨renderMindMap_of_root hf edges fuel, ?_⟩
    intro tree h
    exact renderMindMapNode_node_level (renderMindMap_visualization hf h)

/-- C2 (witness): of two level-0 nodes the first one, which is not the first
node, is the root. -/
theorem root_selection_witness :
    twoRootsNodes =
        [⟨.num 2, "a", 1, .string "70%"⟩] ++
          (⟨.num 1, "root", 0, .number (.finite (roundToDouble (9 / 10)))⟩ : Node) ::
            [⟨.num 3, "b", 0, .null⟩] ∧
      renderMindMap 3 (some ⟨some twoRootsNodes, treeEdges⟩) =
        (renderMindMapNode twoRootsNodes 3 ⟨.num 1, "root", 0, .number (.finite (roundToDouble (9 / 10)))⟩
          treeEdges 0).map Rendered.visualization ∧
      ∀ tree, renderMindMap 3 (some ⟨some twoRootsNodes, treeEdges⟩) =
          some (.visualization tree) →
        tree.node = ⟨.num 1, "root", 0, .number (.finite (roundToDouble (9 / 10)))⟩ ∧ tree.level = 0 :=
  ⟨rfl, (root_selection twoRootsNodes treeEdges 3).2 [⟨.num 2, "a", 1, .string "70%"⟩]
    ⟨.num 1, "root", 0, .number (.finite (roundToDouble (9 / 10)))⟩ [⟨.num 3, "b", 0, .null⟩] rfl rfl
    (by simp)⟩

/-- C3: the child nodes computed for a node `n` are exactly the list obtained
by scanning the edges in order, keeping each edge whose source is `n.id`,
replacing it by the node whose id is the edge's target and dropping the edge
when there is none; in a built tree the children of every element are the
renderings of exactly that list, in that order and with that multiplicity. -/
theorem children_follow_edges (nodes : List Node) (edges : List Edge) :
    (∀ n : Node, childNodes nodes n edges = scanChildren nodes n.id edges) ∧
    (∀ (fuel : Nat) (tree : RenderTree),
      renderMindMap fuel (some ⟨some nodes, edges⟩) = some (.visualization tree) →
      ∀ s ∈ tree.subtrees,
        s.children.map RenderTree.node = scanChildren nodes s.node.id edges) := by
  refine ⟨fun n => childNodes_eq_scanChildren nodes n edges, ?_⟩
  intro fuel tree h
  cases hf : nodes.find? (fun node => node.level = 0) with
  | none => simp [renderMindMap, hf] at h
  | some root =>
    exact subtree_children_scan nodes edges fuel root 0 tree
      (renderMindMap_visualization hf h)

/-- C3 (witness): with edges `1->2, 1->9, 1->2, 2->3` the root has the children
2 and 2: the duplicated edge gives a duplicated child and the edge to the
missing node 9 gives none. -/
theorem children_follow_edges_witness :
    ∃ tree, renderMindMap 3 (some ⟨some scenarioNodes, dupEdges⟩) =
        some (.visualization tree) ∧
      tree.children.map (fun c => c.node.id) = [.num 2, .num 2] ∧
      ∀ s ∈ tree.subtrees,
        s.children.map RenderTree.node = scanChildren scenarioNodes s.node.id dupEdges :=
  ⟨_, rfl, rfl, (children_follow_edges scenarioNodes dupEdges).2 3 _ rfl⟩

/-- C4 (counterexample): the graph with nodes 1 (level 0) and 3 and edges
`1->3`, `3->1` has a level-0 node, and its rendering does not finish within
any recursion depth. -/
theorem cyclic_graph_never_finishes :
    (∃ n ∈ cycleNodes, n.level = 0) ∧
      ∀ fuel, renderMindMap fuel (some ⟨some cycleNodes, cycleEdges⟩) = none := by
  refine ⟨⟨⟨.num 1, "root", 0, .number (.finite (roundToDouble (9 / 10)))⟩, by simp [cycleNodes], rfl⟩, ?_⟩
  intro fuel
  have hroot : cycleNodes.find? (fun node => node.level = 0) =
      some ⟨.num 1, "root", 0, .number (.finite (roundToDouble (9 / 10)))⟩ := rfl
  have h13 : ChildStep cycleNodes cycleEdges (.num 1) (.num 3) :=
    ⟨⟨.num 1, .num 3⟩, by simp [cycleEdges], rfl, rfl,
      ⟨.num 3, "b", 1, .null⟩, by simp [cycleNodes], rfl⟩
  have h31 : ChildStep cycleNodes cycleEdges (.num 3) (.num 1) :=
    ⟨⟨.num 3, .num 1⟩, by simp [cycleEdges], rfl, rfl,
      ⟨.num 1, "root", 0, .number (.finite (roundToDouble (9 / 10)))⟩, by simp [cycleNodes], rfl⟩
  have hcyc : CycleReachable cycleNodes cycleEdges (.num 1) :=
    ⟨.num 1, Relation.ReflTransGen.refl, Relation.TransGen.tail (Relation.TransGen.single h13) h31⟩
  rw [renderMindMap_of_root hroot, not_finished_of_cycle hcyc]
  rfl

/-- C4 (amended): for every graph with a level-0 node, if no cycle of
resolving edges can be reached from the root then the rendering finishes with a
tree within every recursion depth of at least the number of nodes; if such a
cycle can be reached it finishes within no recursion depth. -/
theorem finishes_iff_no_cycle (nodes : List Node) (edges : List Edge) (root : Node)
    (hroot : nodes.find? (fun node => node.level = 0) = some root) :
    (¬ CycleReachable nodes edges root.id →
      ∀ fuel, nodes.length ≤ fuel →
        ∃ tree, renderMindMap fuel (some ⟨some nodes, edges⟩) = some (.visualization tree)) ∧
    (CycleReachable nodes edges root.id →
      ∀ fuel, renderMindMap fuel (some ⟨some nodes, edges⟩) = none) := by
  constructor
  · intro hacyc fuel hfuel
    obtain ⟨t, ht⟩ :=
      finishes_of_no_cycle (List.mem_of_find?_eq_some hroot) hacyc hfuel 0
    exact ⟨t, by rw [renderMindMap_of_root hroot, ht]; rfl⟩
  · intro hcyc fuel
    rw [renderMindMap_of_root hroot, not_finished_of_cycle hcyc]
    rfl

/-- C4 (witness): the scenario without its back edge has no reachable cycle and
is rendered within depth 3. -/
theorem finishes_iff_no_cycle_witness :
    scenarioNodes.find? (fun node => node.level = 0) =
        some ⟨.num 1, "root", 0, .number (.finite (roundToDouble (9 / 10)))⟩ ∧
      ¬ CycleReachable scenarioNodes treeEdges (.num 1) ∧
      ∃ tree, renderMindMap 3 (some ⟨some scenarioNodes, treeEdges⟩) =
        some (.visualization tree) :=
  ⟨rfl, no_cycle_treeEdges,
    (finishes_iff_no_cycle scenarioNodes treeEdges
      ⟨.num 1, "root", 0, .number (.finite (roundToDouble (9 / 10)))⟩ rfl).1 no_cycle_treeEdges 3
      (by decide)⟩

/-- C5 (counterexample): in the scenario of the specification the back edge
`3->1` is not dropped, node 1 is a child node of node 3, and no tree is built
within any recursion depth. -/
theorem scenario_never_finishes :
    (childNodes scenarioNodes ⟨.num 3, "b", 1, .null⟩ scenarioEdges).map Node.id = [.num 1] ∧
      ∀ fuel, renderMindMap fuel (some ⟨some scenarioNodes, scenarioEdges⟩) = none := by
  refine ⟨rfl, ?_⟩
  intro fuel
  have hroot : scenarioNodes.find? (fun node => node.level = 0) =
      some ⟨.num 1, "root", 0, .number (.finite (roundToDouble (9 / 10)))⟩ := rfl
  have h13 : ChildStep scenarioNodes scenarioEdges (.num 1) (.num 3) :=
    ⟨⟨.num 1, .num 3⟩, by simp [scenarioEdges], rfl, rfl,
      ⟨.num 3, "b", 1, .null⟩, by simp [scenarioNodes], rfl⟩
  have h31 : ChildStep scenarioNodes scenarioEdges (.num 3) (.num 1) :=
    ⟨⟨.num 3, .num 1⟩, by simp [scenarioEdges], rfl, rfl,
      ⟨.num 1, "root", 0, .number (.finite (roundToDouble (9 / 10)))⟩, by simp [scenarioNodes], rfl⟩
  have hcyc : CycleReachable scenarioNodes scenarioEdges (.num 1) :=
    ⟨.num 1, Relation.ReflTransGen.refl, Relation.TransGen.tail (Relation.TransGen.single h13) h31⟩
  rw [renderMindMap_of_root hroot, not_finished_of_cycle hcyc]
  rfl

/-- C5 (amended): for every graph with a level-0 node and no cycle of
resolving edges reachable from the root, a tree is built and no node id occurs
twice along any root-to-leaf path of a built tree. -/
theorem paths_have_no_repeat (nodes : List Node) (edges : List Edge) (root : Node)
    (hroot : nodes.find? (fun node => node.level = 0) = some root)
    (hacyc : ¬ CycleReachable nodes edges root.id) :
    (∃ tree, renderMindMap nodes.length (some ⟨some nodes, edges⟩) =
      some (.visualization tree)) ∧
    ∀ fuel tree, renderMindMap fuel (some ⟨some nodes, edges⟩) = some (.visualization tree) →
      ∀ p ∈ tree.paths, p.Nodup := by
  constructor
  · obtain ⟨t, ht⟩ :=
      finishes_of_no_cycle (List.mem_of_find?_eq_some hroot) hacyc (le_refl _) 0
    exact ⟨t, by rw [renderMindMap_of_root hroot, ht]; rfl⟩
  · intro fuel tree h p hp
    obtain ⟨l, hl, hchain⟩ :=
      paths_are_chains nodes edges fuel root 0 tree (renderMindMap_visualization hroot h) p hp
    by_contra hnd
    rw [hl] at hnd
    exact hacyc (chain_duplicate_cycle hchain hnd)

/-- C5 (witness): without the back edge `3->1` the scenario gives root 1 with
children 2 and 3 in that order, node 3 has no children, and no path repeats an
id. -/
theorem paths_have_no_repeat_witness :
    scenarioNodes.find? (fun node => node.level = 0) =
        some ⟨.num 1, "root", 0, .number (.finite (roundToDouble (9 / 10)))⟩ ∧
      ¬ CycleReachable scenarioNodes treeEdges (.num 1) ∧
      (∃ tree, renderMindMap 3 (some ⟨some scenarioNodes, treeEdges⟩) =
          some (.visualization tree) ∧
        tree.node.id = .num 1 ∧
        tree.children.map (fun c => c.node.id) = [.num 2, .num 3] ∧
        tree.children.map (fun c => c.children.length) = [0, 0] ∧
        tree.paths = [[.num 1, .num 2], [.num 1, .num 3]]) ∧
      ∀ fuel tree, renderMindMap fuel (some ⟨some scenarioNodes, treeEdges⟩) =
          some (.visualization tree) →
        ∀ p ∈ tree.paths, p.Nodup :=
  ⟨rfl, no_cycle_treeEdges, ⟨_, rfl, rfl, rfl, rfl, rfl⟩,
    (paths_have_no_repeat scenarioNodes treeEdges
      ⟨.num 1, "root", 0, .number (.finite (roundToDouble (9 / 10)))⟩ rfl no_cycle_treeEdges).2⟩

/-! ### Elements of a built tree -/

theorem mem_subtrees_self (t : RenderTree) : t ∈ t.subtrees := by
  cases t with
  | mk node level p c children => simp [RenderTree.subtrees]

theorem exists_right_of_mem_left {α β : Type} {R : α → β → Prop} {l : List α} {m : List β}
    (h : List.Forall₂ R l m) {a : α} (ha : a ∈ l) : ∃ b ∈ m, R a b := by
  induction h with
  | nil => simp at ha
  | cons hab _ ih =>
    rcases List.mem_cons.mp ha with rfl | ha'
    · exact ⟨_, List.mem_cons_self _ _, hab⟩
    · obtain ⟨b, hb, hr⟩ := ih ha'
      exact ⟨b, List.mem_cons_of_mem _ hb, hr⟩

theorem find_of_mem_scanChildren {nodes : List Node} {id : Ident} {edges : List Edge}
    {c : Node} (h : c ∈ scanChildren nodes id edges) :
    nodes.find? (fun n => n.id = c.id) = some c := by
  induction edges with
  | nil => simp [scanChildren] at h
  | cons edge rest ih =>
    unfold scanChildren at h
    split at h
    · split at h
      · next n hf =>
        rcases List.mem_cons.mp h with hcn | hrest
        · subst hcn
          have hid := List.find?_some hf
          simp only [decide_eq_true_eq] at hid
          rw [hid]
          exact hf
        · exact ih hrest
      · exact ih h
    · exact ih h

/-- Every element of a built tree is itself built, at some depth and level. -/
theorem subtree_built (nodes : List Node) (edges : List Edge) :
    ∀ (fuel : Nat) (node : Node) (level : Nat) (t : RenderTree),
      renderMindMapNode nodes fuel node edges level = some t →
      ∀ s ∈ t.subtrees, ∃ fuel' level',
        renderMindMapNode nodes fuel' s.node edges level' = some s := by
  intro fuel
  induction fuel with
  | zero =>
    intro node level t h
    simp [renderMindMapNode] at h
  | succ fuel ih =>
    intro node level t h s hs
    obtain ⟨fuel', children, hf, ht, hall⟩ := renderMindMapNode_some h
    have hfuel : fuel' = fuel := by omega
    subst hfuel
    have ht' := ht
    subst ht
    simp only [RenderTree.subtrees, List.mem_cons] at hs
    rcases hs with rfl | hs
    · exact ⟨fuel' + 1, level, h⟩
    · obtain ⟨t', ht'mem, hst'⟩ := mem_subtreesList.mp hs
      obtain ⟨c, _, hc⟩ := exists_left_of_mem_right hall ht'mem
      exact ih c (level + 1) t' hc s hst'

theorem child_mem_subtrees (nodes : List Node) (edges : List Edge) :
    ∀ (fuel : Nat) (node : Node) (level : Nat) (t : RenderTree),
      renderMindMapNode nodes fuel node edges level = some t →
      ∀ s ∈ t.subtrees, ∀ c ∈ s.children, c ∈ t.subtrees := by
  intro fuel
  induction fuel with
  | zero =>
    intro node level t h
    simp [renderMindMapNode] at h
  | succ fuel ih =>
    intro node level t h s hs c hc
    obtain ⟨fuel', children, hf, ht, hall⟩ := renderMindMapNode_some h
    have hfuel : fuel' = fuel := by omega
    subst hfuel
    subst ht
    simp only [RenderTree.subtrees, List.mem_cons] at hs ⊢
    right
    rcases hs with rfl | hs
    · exact mem_subtreesList.mpr ⟨c, hc, mem_subtrees_self c⟩
    · obtain ⟨t', ht'mem, hst'⟩ := mem_subtreesList.mp hs
      obtain ⟨n', _, hn'⟩ := exists_left_of_mem_right hall ht'mem
      exact mem_subtreesList.mpr ⟨t', ht'mem, ih n' (level + 1) t' hn' s hst' c hc⟩

/-- An element of a built tree other than the top is the first node with its
id and is reached from the top by a chain of resolving edges. -/
theorem subtree_reached (nodes : List Node) (edges : List Edge) :
    ∀ (fuel : Nat) (node : Node) (level : Nat) (t : RenderTree),
      renderMindMapNode nodes fuel node edges level = some t →
      ∀ s ∈ t.subtrees, s = t ∨
        (nodes.find? (fun n => n.id = s.node.id) = some s.node ∧
          Relation.TransGen (ChildStep nodes edges) node.id s.node.id) := by
  intro fuel
  induction fuel with
  | zero =>
    intro node level t h
    simp [renderMindMapNode] at h
  | succ fuel ih =>
    intro node level t h s hs
    obtain ⟨fuel', children, hf, ht, hall⟩ := renderMindMapNode_some h
    have hfuel : fuel' = fuel := by omega
    subst hfuel
    subst ht
    simp only [RenderTree.subtrees, List.mem_cons] at hs
    rcases hs with rfl | hs
    · exact Or.inl rfl
    · right
      obtain ⟨t', ht'mem, hst'⟩ := mem_subtreesList.mp hs
      obtain ⟨c, hc, hrender⟩ := exists_left_of_mem_right hall ht'mem
      have hstep : ChildStep nodes edges node.id c.id := childStep_of_mem_childNodes hc
      have hfind : nodes.find? (fun n => n.id = c.id) = some c := by
        rw [childNodes_eq_scanChildren] at hc
        exact find_of_mem_scanChildren hc
      rcases ih c (level + 1) t' hrender s hst' with rfl | ⟨hf', hpath⟩
      · rw [(renderMindMapNode_node_level hrender).1]
        exact ⟨hfind, Relation.TransGen.single hstep⟩
      · exact ⟨hf', Relation.TransGen.head hstep hpath⟩

/-- A resolving edge out of the top of a built tree gives a child. -/
theorem child_of_childStep {nodes : List Node} {edges : List Edge} {fuel : Nat}
    {node : Node} {level : Nat} {t : RenderTree} {b : Ident}
    (h : renderMindMapNode nodes fuel node edges level = some t)
    (hstep : ChildStep nodes edges node.id b) :
    ∃ c ∈ t.children, c.node.id = b ∧
      nodes.find? (fun n => n.id = b) = some c.node := by
  obtain ⟨fuel', children, _, ht, hall⟩ := renderMindMapNode_some h
  obtain ⟨d, hd, hdb⟩ := exists_child_of_childStep hstep
  obtain ⟨c, hc, hrender⟩ := exists_right_of_mem_left hall hd
  have hnode := (renderMindMapNode_node_level hrender).1
  have hfind : nodes.find? (fun n => n.id = d.id) = some d := by
    rw [childNodes_eq_scanChildren] at hd
    exact find_of_mem_scanChildren hd
  subst ht
  refine ⟨c, hc, by rw [hnode, hdb], ?_⟩
  rw [hnode, ← hdb]
  exact hfind

theorem reached_mem_subtrees {nodes : List Node} {edges : List Edge} {fuel : Nat}
    {node : Node} {level : Nat} {t : RenderTree}
    (h : renderMindMapNode nodes fuel node edges level = some t) {b : Ident}
    (hpath : Relation.TransGen (ChildStep nodes edges) node.id b) :
    ∃ s ∈ t.subtrees, s.node.id = b ∧
      nodes.find? (fun n => n.id = b) = some s.node := by
  induction hpath with
  | single hstep =>
    obtain ⟨c, hc, hid, hfind⟩ := child_of_childStep h hstep
    exact ⟨c, child_mem_subtrees nodes edges fuel node level t h t (mem_subtrees_self t) c hc,
      hid, hfind⟩
  | tail _ hstep ih =>
    obtain ⟨s, hs, hsid, _⟩ := ih
    obtain ⟨f', l', hbuilt⟩ := subtree_built nodes edges fuel node level t h s hs
    rw [← hsid] at hstep
    obtain ⟨c, hc, hid, hfind⟩ := child_of_childStep hbuilt hstep
    exact ⟨c, child_mem_subtrees nodes edges fuel node level t h s hs c hc, hid, hfind⟩

theorem subtree_node_mem (nodes : List Node) (edges : List Edge) :
    ∀ (fuel : Nat) (node : Node) (level : Nat) (t : RenderTree),
      renderMindMapNode nodes fuel node edges level = some t → node ∈ nodes →
      ∀ s ∈ t.subtrees, s.node ∈ nodes := by
  intro fuel node level t h hnode s hs
  rcases subtree_reached nodes edges fuel node level t h s hs with rfl | ⟨hfind, _⟩
  · rw [(renderMindMapNode_node_level h).1]
    exact hnode
  · exact List.mem_of_find?_eq_some hfind

theorem withDepth_level (nodes : List Node) (edges : List Edge) :
    ∀ (fuel : Nat) (node : Node) (level : Nat) (t : RenderTree),
      renderMindMapNode nodes fuel node edges level = some t →
      ∀ (d : Nat), ∀ x ∈ t.withDepth d, x.2.level + d = level + x.1 := by
  intro fuel
  induction fuel with
  | zero =>
    intro node level t h
    simp [renderMindMapNode] at h
  | succ fuel ih =>
    intro node level t h d x hx
    obtain ⟨fuel', children, hf, ht, hall⟩ := renderMindMapNode_some h
    have hfuel : fuel' = fuel := by omega
    subst hfuel
    subst ht
    simp only [RenderTree.withDepth, List.mem_cons] at hx
    rcases hx with rfl | hx
    · simp only [RenderTree.level]
    · have hlist : ∀ (cs : List Node) (ts : List RenderTree),
          List.Forall₂ (fun c s => renderMindMapNode nodes fuel' c edges (level + 1) = some s)
            cs ts →
          ∀ y ∈ withDepthList ts (d + 1), y.2.level + (d + 1) = level + 1 + y.1 := by
        intro cs ts hcs
        induction hcs with
        | nil => intro y hy; simp [withDepthList] at hy
        | cons hc _ ihl =>
          intro y hy
          simp only [withDepthList, List.mem_append] at hy
          rcases hy with hy | hy
          · exact ih _ (level + 1) _ hc (d + 1) y hy
          · exact ihl y hy
      have := hlist _ _ hall x hx
      omega

theorem children_level (nodes : List Node) (edges : List Edge) :
    ∀ (fuel : Nat) (node : Node) (level : Nat) (t : RenderTree),
      renderMindMapNode nodes fuel node edges level = some t →
      ∀ c ∈ t.children, c.level = t.level + 1 := by
  intro fuel node level t h c hc
  obtain ⟨fuel', children, _, ht, hall⟩ := renderMindMapNode_some h
  subst ht
  obtain ⟨n, _, hn⟩ := exists_left_of_mem_right hall hc
  rw [(renderMindMapNode_node_level hn).2]
  rfl

/-- C13: for every graph with a level-0 node and no cycle reachable from the
root a tree is built, every node occurring in a built tree is an element of
`nodes`, every child is the target of an edge whose source is its parent's id,
and an edge whose target is the id of no node gives no child at any depth. -/
theorem tree_nodes_resolve (nodes : List Node) (edges : List Edge) (root : Node)
    (hroot : nodes.find? (fun node => node.level = 0) = some root)
    (hacyc : ¬ CycleReachable nodes edges root.id) :
    (∃ tree, renderMindMap nodes.length (some ⟨some nodes, edges⟩) =
      some (.visualization tree)) ∧
    ∀ fuel tree, renderMindMap fuel (some ⟨some nodes, edges⟩) = some (.visualization tree) →
      (∀ s ∈ tree.subtrees, s.node ∈ nodes) ∧
      (∀ s ∈ tree.subtrees, ∀ c ∈ s.children,
        ∃ edge ∈ edges, edge.source = s.node.id ∧ edge.target = c.node.id) ∧
      (∀ edge ∈ edges, (∀ n ∈ nodes, n.id ≠ edge.target) →
        ∀ s ∈ tree.subtrees, s.node.id ≠ edge.target) := by
  have hmem : root ∈ nodes := List.mem_of_find?_eq_some hroot
  constructor
  · obtain ⟨t, ht⟩ := finishes_of_no_cycle hmem hacyc (le_refl _) 0
    exact ⟨t, by rw [renderMindMap_of_root hroot, ht]; rfl⟩
  · intro fuel tree h
    have hbuilt := renderMindMap_visualization hroot h
    have hnodes := subtree_node_mem nodes edges fuel root 0 tree hbuilt hmem
    refine ⟨hnodes, ?_, ?_⟩
    · intro s hs c hc
      have hscan := subtree_children_scan nodes edges fuel root 0 tree hbuilt s hs
      have hcmem : c.node ∈ scanChildren nodes s.node.id edges := by
        rw [← hscan]
        exact List.mem_map.mpr ⟨c, hc, rfl⟩
      exact (mem_scanChildren hcmem).2
    · intro edge _ hno s hs
      exact hno s.node (hnodes s hs)

theorem no_cycle_of_rank {nodes : List Node} {edges : List Edge} (rank : Ident → Nat)
    (h : ∀ edge ∈ edges, rank edge.target < rank edge.source) (root : Ident) :
    ¬ CycleReachable nodes edges root := by
  have hstep : ∀ a b, ChildStep nodes edges a b → rank b < rank a := by
    rintro a b ⟨edge, he, rfl, rfl, _⟩
    exact h edge he
  have htrans : ∀ a b, Relation.TransGen (ChildStep nodes edges) a b → rank b < rank a := by
    intro a b hab
    induction hab with
    | single hs => exact hstep _ _ hs
    | tail _ hs ih => exact lt_trans (hstep _ _ hs) ih
  rintro ⟨c, _, hloop⟩
  exact lt_irrefl _ (htrans c c hloop)

theorem no_cycle_diamond (nodes : List Node) : ¬ CycleReachable nodes diamondEdges (.num 1) :=
  no_cycle_of_rank
    (fun id => match id with
      | .num n => (10 - n).toNat
      | .str _ => 0)
    (by decide) (.num 1)

/-- C13 (witness): in the diamond graph the edge `3 -> 9` leads to no node and
no element of the tree has id 9. -/
theorem tree_nodes_resolve_witness :
    diamondNodes.find? (fun node => node.level = 0) =
        some ⟨.num 1, "root", 0, .number (.finite (roundToDouble (9 / 10)))⟩ ∧
      ¬ CycleReachable diamondNodes diamondEdges (.num 1) ∧
      ∃ tree, renderMindMap 4 (some ⟨some diamondNodes, diamondEdges⟩) =
          some (.visualization tree) ∧
        tree.subtrees.map (fun s => s.node.id) =
          [.num 1, .num 2, .num 4, .num 5, .num 3, .num 4, .num 5] ∧
        (∀ s ∈ tree.subtrees, s.node ∈ diamondNodes) ∧
        (∀ s ∈ tree.subtrees, ∀ c ∈ s.children,
          ∃ edge ∈ diamondEdges, edge.source = s.node.id ∧ edge.target = c.node.id) ∧
        (∀ edge ∈ diamondEdges, (∀ n ∈ diamondNodes, n.id ≠ edge.target) →
          ∀ s ∈ tree.subtrees, s.node.id ≠ edge.target) :=
  ⟨rfl, no_cycle_diamond diamondNodes, _, rfl, rfl,
    (tree_nodes_resolve diamondNodes diamondEdges
      ⟨.num 1, "root", 0, .number (.finite (roundToDouble (9 / 10)))⟩ rfl
      (no_cycle_diamond diamondNodes)).2 4 _ rfl⟩

/-- C14: for every graph with a level-0 node and no cycle reachable from the
root a tree is built; the root of a built tree is at level 0, every child is at
its parent's level plus 1, and the level of every element is the number of
edges on its path from the root. -/
theorem tree_levels (nodes : List Node) (edges : List Edge) (root : Node)
    (hroot : nodes.find? (fun node => node.level = 0) = some root)
    (hacyc : ¬ CycleReachable nodes edges root.id) :
    (∃ tree, renderMindMap nodes.length (some ⟨some nodes, edges⟩) =
      some (.visualization tree)) ∧
    ∀ fuel tree, renderMindMap fuel (some ⟨some nodes, edges⟩) = some (.visualization tree) →
      tree.level = 0 ∧
      (∀ s ∈ tree.subtrees, ∀ c ∈ s.children, c.level = s.level + 1) ∧
      (∀ x ∈ tree.withDepth 0, x.2.level = x.1) := by
  have hmem : root ∈ nodes := List.mem_of_find?_eq_some hroot
  constructor
  · obtain ⟨t, ht⟩ := finishes_of_no_cycle hmem hacyc (le_refl _) 0
    exact ⟨t, by rw [renderMindMap_of_root hroot, ht]; rfl⟩
  · intro fuel tree h
    have hbuilt := renderMindMap_visualization hroot h
    refine ⟨(renderMindMapNode_node_level hbuilt).2, ?_, ?_⟩
    · intro s hs c hc
      obtain ⟨f', l', hs'⟩ := subtree_built nodes edges fuel root 0 tree hbuilt s hs
      exact children_level nodes edges f' s.node l' s hs' c hc
    · intro x hx
      have := withDepth_level nodes edges fuel root 0 tree hbuilt 0 x hx
      omega

/-- C14 (witness): the levels of the elements of the diamond tree, in
pre-order, are 0, 1, 2, 3, 1, 2, 3. -/
theorem tree_levels_witness :
    diamondNodes.find? (fun node => node.level = 0) =
        some ⟨.num 1, "root", 0, .number (.finite (roundToDouble (9 / 10)))⟩ ∧
      ¬ CycleReachable diamondNodes diamondEdges (.num 1) ∧
      ∃ tree, renderMindMap 4 (some ⟨some diamondNodes, diamondEdges⟩) =
          some (.visualization tree) ∧
        tree.subtrees.map (fun s => s.level) = [0, 1, 2, 3, 1, 2, 3] ∧
        (tree.withDepth 0).map (fun x => x.1) = [0, 1, 2, 3, 1, 2, 3] ∧
        tree.level = 0 ∧
        (∀ s ∈ tree.subtrees, ∀ c ∈ s.children, c.level = s.level + 1) ∧
        (∀ x ∈ tree.withDepth 0, x.2.level = x.1) :=
  ⟨rfl, no_cycle_diamond diamondNodes, _, rfl, rfl, rfl,
    (tree_levels diamondNodes diamondEdges
      ⟨.num 1, "root", 0, .number (.finite (roundToDouble (9 / 10)))⟩ rfl
      (no_cycle_diamond diamondNodes)).2 4 _ rfl⟩

/-- C20: for every graph with a level-0 node and no cycle reachable from the
root a tree is built, and a node occurs in a built tree if and only if it is
the root or it is the first node carrying its id and that id is reached from
the root's id by a chain of edges each of whose targets is the id of a
node. -/
theorem tree_nodes_are_reachable (nodes : List Node) (edges : List Edge) (root : Node)
    (hroot : nodes.find? (fun node => node.level = 0) = some root)
    (hacyc : ¬ CycleReachable nodes edges root.id) :
    (∃ tree, renderMindMap nodes.length (some ⟨some nodes, edges⟩) =
      some (.visualization tree)) ∧
    ∀ fuel tree, renderMindMap fuel (some ⟨some nodes, edges⟩) = some (.visualization tree) →
      ∀ n : Node, (∃ s ∈ tree.subtrees, s.node = n) ↔
        (n = root ∨
          (nodes.find? (fun m => m.id = n.id) = some n ∧
            Relation.TransGen (ChildStep nodes edges) root.id n.id)) := by
  have hmem : root ∈ nodes := List.mem_of_find?_eq_some hroot
  constructor
  · obtain ⟨t, ht⟩ := finishes_of_no_cycle hmem hacyc (le_refl _) 0
    exact ⟨t, by rw [renderMindMap_of_root hroot, ht]; rfl⟩
  · intro fuel tree h n
    have hbuilt := renderMindMap_visualization hroot h
    constructor
    · rintro ⟨s, hs, rfl⟩
      rcases subtree_reached nodes edges fuel root 0 tree hbuilt s hs with rfl | hreach
      · exact Or.inl (renderMindMapNode_node_level hbuilt).1
      · exact Or.inr hreach
    · rintro (rfl | ⟨hfind, hpath⟩)
      · exact ⟨tree, mem_subtrees_self tree, (renderMindMapNode_node_level hbuilt).1⟩
      · obtain ⟨s, hs, _, hsfind⟩ := reached_mem_subtrees hbuilt hpath
        refine ⟨s, hs, ?_⟩
        rw [hfind] at hsfind
        exact (Option.some.inj hsfind).symm

/-- C20 (witness): in the diamond graph node 6, a second level-0 node that no
edge leads to, is not in the tree, and node 5 is. -/
theorem tree_nodes_are_reachable_witness :
    diamondNodes.find? (fun node => node.level = 0) =
        some ⟨.num 1, "root", 0, .number (.finite (roundToDouble (9 / 10)))⟩ ∧
      ¬ CycleReachable diamondNodes diamondEdges (.num 1) ∧
      ∃ tree, renderMindMap 4 (some ⟨some diamondNodes, diamondEdges⟩) =
          some (.visualization tree) ∧
        (⟨.num 6, "e", 0, .undefined⟩ : Node) ∈ diamondNodes ∧
        (¬ ∃ s ∈ tree.subtrees, s.node = ⟨.num 6, "e", 0, .undefined⟩) ∧
        (∃ s ∈ tree.subtrees, s.node = ⟨.num 5, "d", 3, .undefined⟩) ∧
        ∀ n : Node, (∃ s ∈ tree.subtrees, s.node = n) ↔
          (n = ⟨.num 1, "root", 0, .number (.finite (roundToDouble (9 / 10)))⟩ ∨
            (diamondNodes.find? (fun m => m.id = n.id) = some n ∧
              Relation.TransGen (ChildStep diamondNodes diamondEdges) (.num 1) n.id)) :=
  ⟨rfl, no_cycle_diamond diamondNodes, _, rfl, by decide, by decide, by decide,
    (tree_nodes_are_reachable diamondNodes diamondEdges
      ⟨.num 1, "root", 0, .number (.finite (roundToDouble (9 / 10)))⟩ rfl
      (no_cycle_diamond diamondNodes)).2 4 _ rfl⟩

/-! ### Trees of graphs with the same ids -/

theorem find_same_ids {nodes nodes' : List Node}
    (h : List.Forall₂ (fun n n' => n.id = n'.id) nodes nodes') (target : Ident) :
    (nodes.find? (fun n => n.id = target) = none ∧
      nodes'.find? (fun n => n.id = target) = none) ∨
    ∃ c c', nodes.find? (fun n => n.id = target) = some c ∧
      nodes'.find? (fun n => n.id = target) = some c' ∧ c.id = c'.id := by
  induction h with
  | nil => exact Or.inl ⟨rfl, rfl⟩
  | @cons n n' rest rest' hn _ ih =>
    by_cases ht : n.id = target
    · right
      have ht' : n'.id = target := hn ▸ ht
      exact ⟨n, n', by simp [ht], by simp [ht'], hn⟩
    · have ht' : ¬ n'.id = target := hn ▸ ht
      simp only [List.find?_cons, ht, ht', decide_False]
      exact ih

theorem scanChildren_same_ids {nodes nodes' : List Node}
    (h : List.Forall₂ (fun n n' => n.id = n'.id) nodes nodes') (id : Ident)
    (edges : List Edge) :
    List.Forall₂ (fun n n' => n.id = n'.id)
      (scanChildren nodes id edges) (scanChildren nodes' id edges) := by
  induction edges with
  | nil => exact List.Forall₂.nil
  | cons edge rest ih =>
    unfold scanChildren
    by_cases hs : edge.source = id
    · rcases find_same_ids h edge.target with ⟨h1, h2⟩ | ⟨c, c', h1, h2, hcc⟩
      · simp only [hs, if_true, h1, h2]
        exact ih
      · simp only [hs, if_true, h1, h2]
        exact List.Forall₂.cons hcc ih
    · simp only [hs, if_false]
      exact ih

/-- Two renderings started on nodes with the same id, in graphs with the same
ids in the same order and the same edges, agree on every datum `g` that
depends only on the id and on levels related by `L`. -/
theorem render_project_eq {α : Type} (g : Node → Nat → α) (L : Nat → Nat → Prop)
    (hL : ∀ l l', L l l' → L (l + 1) (l' + 1))
    (hg : ∀ n n' l l', n.id = n'.id → L l l' → g n l = g n' l')
    {nodes nodes' : List Node}
    (hnodes : List.Forall₂ (fun n n' => n.id = n'.id) nodes nodes') (edges : List Edge) :
    ∀ (fuel fuel' : Nat) (n n' : Node) (l l' : Nat) (t t' : RenderTree),
      n.id = n'.id → L l l' →
      renderMindMapNode nodes fuel n edges l = some t →
      renderMindMapNode nodes' fuel' n' edges l' = some t' →
      t.project g = t'.project g := by
  intro fuel
  induction fuel with
  | zero =>
    intro fuel' n n' l l' t t' _ _ h
    simp [renderMindMapNode] at h
  | succ fuel ih =>
    intro fuel' n n' l l' t t' hid hl h h'
    obtain ⟨f₁, children, hf₁, ht, hall⟩ := renderMindMapNode_some h
    obtain ⟨f₂, children', _, ht', hall'⟩ := renderMindMapNode_some h'
    have hfuel : f₁ = fuel := by omega
    subst hfuel
    subst ht
    subst ht'
    have hkids : List.Forall₂ (fun c c' => c.id = c'.id)
        (childNodes nodes n edges) (childNodes nodes' n' edges) := by
      rw [childNodes_eq_scanChildren, childNodes_eq_scanChildren, ← hid]
      exact scanChildren_same_ids hnodes n.id edges
    have hlist : ∀ (cs cs' : List Node), List.Forall₂ (fun c c' => c.id = c'.id) cs cs' →
        ∀ (ts ts' : List RenderTree),
          List.Forall₂ (fun c s => renderMindMapNode nodes f₁ c edges (l + 1) = some s) cs ts →
          List.Forall₂ (fun c s => renderMindMapNode nodes' f₂ c edges (l' + 1) = some s)
            cs' ts' →
          projectList g ts = projectList g ts' := by
      intro cs cs' hcs
      induction hcs with
      | nil =>
        intro ts ts' h1 h2
        cases h1
        cases h2
        rfl
      | cons hc _ ihl =>
        intro ts ts' h1 h2
        cases h1 with
        | cons hr1 hrest1 =>
          cases h2 with
          | cons hr2 hrest2 =>
            simp only [projectList]
            rw [ih f₂ _ _ (l + 1) (l' + 1) _ _ hc (hL l l' hl) hr1 hr2,
              ihl _ _ hrest1 hrest2]
    simp only [RenderTree.project]
    rw [hg n n' l l' hid hl, hlist _ _ hkids _ _ hall hall']

theorem same_ids_refl (nodes : List Node) :
    List.Forall₂ (fun (n n' : Node) => n.id = n'.id) nodes nodes := by
  induction nodes with
  | nil => exact List.Forall₂.nil
  | cons n rest ih => exact List.Forall₂.cons rfl ih

theorem childStep_same_ids {nodes nodes' : List Node}
    (h : List.Forall₂ (fun n n' => n.id = n'.id) nodes nodes') {edges : List Edge}
    {a b : Ident} (hstep : ChildStep nodes' edges a b) : ChildStep nodes edges a b := by
  obtain ⟨edge, he, hs, ht, n', hn', hid⟩ := hstep
  obtain ⟨n, hn, hnn⟩ := exists_left_of_mem_right h hn'
  exact ⟨edge, he, hs, ht, n, hn, hnn.trans hid⟩

theorem cycleReachable_same_ids {nodes nodes' : List Node}
    (h : List.Forall₂ (fun n n' => n.id = n'.id) nodes nodes') {edges : List Edge}
    {root : Ident} (hcyc : CycleReachable nodes' edges root) :
    CycleReachable nodes edges root := by
  obtain ⟨c, hreach, hloop⟩ := hcyc
  exact ⟨c, Relation.ReflTransGen.mono (fun _ _ => childStep_same_ids h) hreach,
    Relation.TransGen.mono (fun _ _ => childStep_same_ids h) hloop⟩

/-- C15: for every graph with a level-0 node and no cycle reachable from the
root a tree is built, and whenever two elements `a` and `b` of a built tree
each have an edge to the same existing node `c`, `c` is shown as a child of `a`
and as a child of `b`, and the two subtrees have the same ids and shape. -/
theorem shared_child_under_each_parent (nodes : List Node) (edges : List Edge) (root : Node)
    (hroot : nodes.find? (fun node => node.level = 0) = some root)
    (hacyc : ¬ CycleReachable nodes edges root.id) :
    (∃ tree, renderMindMap nodes.length (some ⟨some nodes, edges⟩) =
      some (.visualization tree)) ∧
    ∀ fuel tree, renderMindMap fuel (some ⟨some nodes, edges⟩) = some (.visualization tree) →
      ∀ a ∈ tree.subtrees, ∀ b ∈ tree.subtrees, ∀ ea ∈ edges, ∀ eb ∈ edges, ∀ c : Node,
        ea.source = a.node.id → eb.source = b.node.id →
        nodes.find? (fun n => n.id = ea.target) = some c →
        nodes.find? (fun n => n.id = eb.target) = some c →
        ∃ ca ∈ a.children, ∃ cb ∈ b.children, ca.node = c ∧ cb.node = c ∧
          ca.project (fun n _ => n.id) = cb.project (fun n _ => n.id) := by
  have hmem : root ∈ nodes := List.mem_of_find?_eq_some hroot
  constructor
  · obtain ⟨t, ht⟩ := finishes_of_no_cycle hmem hacyc (le_refl _) 0
    exact ⟨t, by rw [renderMindMap_of_root hroot, ht]; rfl⟩
  · intro fuel tree h a ha b hb ea hea eb heb c hsa hsb hfa hfb
    have hbuilt := renderMindMap_visualization hroot h
    have hchild : ∀ s ∈ tree.subtrees, ∀ e ∈ edges, e.source = s.node.id →
        nodes.find? (fun n => n.id = e.target) = some c →
        ∃ f l, ∃ cs ∈ s.children, renderMindMapNode nodes f c edges l = some cs := by
      intro s hs e he hsrc hfind
      obtain ⟨f', l', hs'⟩ := subtree_built nodes edges fuel root 0 tree hbuilt s hs
      obtain ⟨f, children, _, hst, hall⟩ := renderMindMapNode_some hs'
      have hc : c ∈ childNodes nodes s.node edges := by
        rw [childNodes_eq_scanChildren]
        exact mem_scanChildren_of_edge he hsrc hfind
      obtain ⟨cs, hcs, hrender⟩ := exists_right_of_mem_left hall hc
      refine ⟨f, l' + 1, cs, ?_, hrender⟩
      rw [hst]
      exact hcs
    obtain ⟨fa, la, ca, hca, hra⟩ := hchild a ha ea hea hsa hfa
    obtain ⟨fb, lb, cb, hcb, hrb⟩ := hchild b hb eb heb hsb hfb
    refine ⟨ca, hca, cb, hcb, (renderMindMapNode_node_level hra).1,
      (renderMindMapNode_node_level hrb).1, ?_⟩
    exact render_project_eq (fun n _ => n.id) (fun _ _ => True) (fun _ _ _ => trivial)
      (fun _ _ _ _ hid _ => hid) (same_ids_refl nodes) edges fa fb c c la lb ca cb rfl trivial
      hra hrb

/-- C15 (witness): in the diamond graph node 4 is a child of node 2 and of node
3, each time with the child 5. -/
theorem shared_child_under_each_parent_witness :
    diamondNodes.find? (fun node => node.level = 0) =
        some ⟨.num 1, "root", 0, .number (.finite (roundToDouble (9 / 10)))⟩ ∧
      ¬ CycleReachable diamondNodes diamondEdges (.num 1) ∧
      ∃ tree, renderMindMap 4 (some ⟨some diamondNodes, diamondEdges⟩) =
          some (.visualization tree) ∧
        tree.children.map (fun s => (s.node.id, s.children.map (fun c =>
          (c.node.id, c.children.map (fun d => d.node.id))))) =
          [(.num 2, [(.num 4, [.num 5])]), (.num 3, [(.num 4, [.num 5])])] ∧
        ∀ a ∈ tree.subtrees, ∀ b ∈ tree.subtrees, ∀ ea ∈ diamondEdges, ∀ eb ∈ diamondEdges,
          ∀ c : Node, ea.source = a.node.id → eb.source = b.node.id →
          diamondNodes.find? (fun n => n.id = ea.target) = some c →
          diamondNodes.find? (fun n => n.id = eb.target) = some c →
          ∃ ca ∈ a.children, ∃ cb ∈ b.children, ca.node = c ∧ cb.node = c ∧
            ca.project (fun n _ => n.id) = cb.project (fun n _ => n.id) :=
  ⟨rfl, no_cycle_diamond diamondNodes, _, rfl, rfl,
    (shared_child_under_each_parent diamondNodes diamondEdges
      ⟨.num 1, "root", 0, .number (.finite (roundToDouble (9 / 10)))⟩ rfl
      (no_cycle_diamond diamondNodes)).2 4 _ rfl⟩

theorem same_ids_of_sameButLevel {nodes nodes' : List Node}
    (h : List.Forall₂ SameButLevel nodes nodes') :
    List.Forall₂ (fun n n' => n.id = n'.id) nodes nodes' :=
  h.imp (fun _ _ hnn => hnn.1)

/-- C17: the level field only selects the root: two graphs with a level-0
node and no cycle reachable from the root, whose nodes differ at most in their
levels and which have the same first level-0 node and the same edges, both
give a tree, and their trees have the same ids, shape and depths; the depth of
a tree element may differ from the level of its node. -/
theorem level_only_selects_root :
    (∀ (nodes nodes' : List Node) (edges : List Edge) (root : Node),
      List.Forall₂ SameButLevel nodes nodes' →
      nodes.find? (fun node => node.level = 0) = some root →
      nodes'.find? (fun node => node.level = 0) = some root →
      ¬ CycleReachable nodes edges root.id →
      (∃ tree tree',
        renderMindMap nodes.length (some ⟨some nodes, edges⟩) = some (.visualization tree) ∧
        renderMindMap nodes'.length (some ⟨some nodes', edges⟩) =
          some (.visualization tree')) ∧
      ∀ fuel fuel' tree tree',
        renderMindMap fuel (some ⟨some nodes, edges⟩) = some (.visualization tree) →
        renderMindMap fuel' (some ⟨some nodes', edges⟩) = some (.visualization tree') →
        tree.project (fun n l => (n.id, l)) = tree'.project (fun n l => (n.id, l))) ∧
    (∃ tree, renderMindMap 4 (some ⟨some diamondNodesRelevelled, diamondEdges⟩) =
        some (.visualization tree) ∧
      ∃ s ∈ tree.subtrees, (s.level : Int) ≠ s.node.level) := by
  constructor
  · intro nodes nodes' edges root hsame hroot hroot' hacyc
    have hids := same_ids_of_sameButLevel hsame
    have hacyc' : ¬ CycleReachable nodes' edges root.id :=
      fun hc => hacyc (cycleReachable_same_ids hids hc)
    constructor
    · obtain ⟨t, ht⟩ :=
        finishes_of_no_cycle (List.mem_of_find?_eq_some hroot) hacyc (le_refl _) 0
      obtain ⟨t', ht'⟩ :=
        finishes_of_no_cycle (List.mem_of_find?_eq_some hroot') hacyc' (le_refl _) 0
      exact ⟨t, t', by rw [renderMindMap_of_root hroot, ht]; rfl,
        by rw [renderMindMap_of_root hroot', ht']; rfl⟩
    · intro fuel fuel' tree tree' h h'
      exact render_project_eq (fun n l => (n.id, l)) Eq (fun _ _ hl => by rw [hl])
        (fun _ _ _ _ hid hl => by simp only [hid, hl]) hids edges fuel fuel' root root 0 0 tree tree'
        rfl rfl (renderMindMap_visualization hroot h) (renderMindMap_visualization hroot' h')
  · exact ⟨_, rfl, by decide⟩

/-- C17 (witness): the diamond graph and its relevelled copy give trees with
the same ids, shape and depths. -/
theorem level_only_selects_root_witness :
    List.Forall₂ SameButLevel diamondNodes diamondNodesRelevelled ∧
      diamondNodes.find? (fun node => node.level = 0) =
        some ⟨.num 1, "root", 0, .number (.finite (roundToDouble (9 / 10)))⟩ ∧
      diamondNodesRelevelled.find? (fun node => node.level = 0) =
        some ⟨.num 1, "root", 0, .number (.finite (roundToDouble (9 / 10)))⟩ ∧
      ¬ CycleReachable diamondNodes diamondEdges (.num 1) ∧
      ∃ tree tree',
        renderMindMap 4 (some ⟨some diamondNodes, diamondEdges⟩) =
          some (.visualization tree) ∧
        renderMindMap 4 (some ⟨some diamondNodesRelevelled, diamondEdges⟩) =
          some (.visualization tree') ∧
        tree.project (fun n l => (n.id, l)) = tree'.project (fun n l => (n.id, l)) :=
  ⟨.cons ⟨rfl, rfl, rfl⟩ (.cons ⟨rfl, rfl, rfl⟩ (.cons ⟨rfl, rfl, rfl⟩
      (.cons ⟨rfl, rfl, rfl⟩ (.cons ⟨rfl, rfl, rfl⟩ (.cons ⟨rfl, rfl, rfl⟩ .nil))))),
    rfl, rfl, no_cycle_diamond diamondNodes, _, _, rfl, rfl,
    (level_only_selects_root.1 diamondNodes diamondNodesRelevelled diamondEdges
      ⟨.num 1, "root", 0, .number (.finite (roundToDouble (9 / 10)))⟩
      (.cons ⟨rfl, rfl, rfl⟩ (.cons ⟨rfl, rfl, rfl⟩ (.cons ⟨rfl, rfl, rfl⟩
        (.cons ⟨rfl, rfl, rfl⟩ (.cons ⟨rfl, rfl, rfl⟩ (.cons ⟨rfl, rfl, rfl⟩ .nil))))))
      rfl rfl (no_cycle_diamond diamondNodes)).2 4 4 _ _ rfl rfl⟩

end MindMapPage

namespace Sidebar

/-! ## Facts about the file picker -/

theorem handleFileChange_too_many {files : List File} (h : 5 < files.length) :
    handleFileChange files =
      [.setUploadError (some "You can upload a maximum of 5 files at once.")] := by
  unfold handleFileChange
  rw [if_pos (by omega), if_pos h]

theorem handleFileChange_accepted {files : List File} (h1 : 1 ≤ files.length)
    (h5 : files.length ≤ 5) :
    handleFileChange files =
      [.setSelectedFiles files, .setUploadError none, .setUploadSuccess false,
        .uploadDocuments files] := by
  unfold handleFileChange
  rw [if_pos (by omega), if_neg (by omega)]

theorem handleFileChange_empty {files : List File} (h : files.length = 0) :
    handleFileChange files = [] := by
  unfold handleFileChange
  rw [if_neg (by omega)]

theorem requests_append (l m : List Effect) : requests (l ++ m) = requests l ++ requests m := by
  induction l with
  | nil => rfl
  | cons e rest ih => cases e <;> simp [requests, ih]

/-- A call of `uploadDocuments` with at least one file sends exactly one
request when a user is logged in, and none otherwise. -/
theorem uploadDocuments_requests (user : Option String) (outcome : FetchOutcome)
    {files : List File} (h : 1 ≤ files.length) :
    requests (uploadDocuments user outcome files) =
      match user with
      | none => []
      | some userId => [(files, userId)] := by
  unfold uploadDocuments
  rw [if_neg (by omega)]
  cases user with
  | none => simp [requests, requests_append]
  | some userId =>
    cases outcome with
    | failed message => simp [requests, requests_append]
    | response ok status body => cases ok <;> simp [requests, requests_append]

/-- Without a logged-in user an accepted selection sends no request and ends
with the error of `uploadDocuments`. -/
theorem handleFileChange_logged_out (st : State) (outcome : FetchOutcome)
    {files : List File} (h1 : 1 ≤ files.length) (h5 : files.length ≤ 5) :
    requests (expandCalls none outcome (handleFileChange files)) = [] ∧
      (run st (expandCalls none outcome (handleFileChange files))).uploadError =
        some "You must be logged in to upload documents." := by
  rw [handleFileChange_accepted h1 h5]
  constructor
  · simp only [expandCalls, requests, requests_append, List.append_nil,
      uploadDocuments_requests none outcome h1]
  · simp only [expandCalls, uploadDocuments, if_neg (by omega : ¬ files.length = 0)]
    rfl

/-- C21: in `handleFileChange`, a selection of more than 5 files sets the
upload error to `You can upload a maximum of 5 files at once.`, starts no
upload and leaves the selected files (and the other state) as they were; a
selection of 1 to 5 files clears the error, stores the selection and calls
`uploadDocuments` exactly once, with those files, which sends exactly one
request when a user is logged in; an empty selection does nothing. -/
theorem handleFileChange_cases (st : State) (files : List File) :
    (5 < files.length →
      run st (handleFileChange files) =
          { st with uploadError := some "You can upload a maximum of 5 files at once." } ∧
        uploadCalls (handleFileChange files) = [] ∧
        (run st (handleFileChange files)).selectedFiles = st.selectedFiles) ∧
    (1 ≤ files.length → files.length ≤ 5 →
      (run st (handleFileChange files)).uploadError = none ∧
        (run st (handleFileChange files)).selectedFiles = files ∧
        uploadCalls (handleFileChange files) = [files] ∧
        ∀ (userId : String) (outcome : FetchOutcome),
          requests (expandCalls (some userId) outcome (handleFileChange files)) =
            [(files, userId)]) ∧
    (files.length = 0 →
      handleFileChange files = [] ∧ run st (handleFileChange files) = st) := by
  refine ⟨?_, ?_, ?_⟩
  · intro h
    rw [handleFileChange_too_many h]
    exact ⟨rfl, rfl, rfl⟩
  · intro h1 h5
    rw [handleFileChange_accepted h1 h5]
    refine ⟨rfl, rfl, rfl, ?_⟩
    intro userId outcome
    simp only [expandCalls, requests, requests_append, List.append_nil,
      uploadDocuments_requests (some userId) outcome h1]
  · intro h
    rw [handleFileChange_empty h]
    exact ⟨rfl, rfl⟩

/-- C21 (witness): six files are refused and the earlier selection stays;
two files are stored and uploaded once; no file changes nothing. -/
theorem handleFileChange_cases_witness :
    (5 < ["a", "b", "c", "d", "e", "f"].length ∧
      run ⟨["old"], false, none, true⟩ (handleFileChange ["a", "b", "c", "d", "e", "f"]) =
        ⟨["old"], false, some "You can upload a maximum of 5 files at once.", true⟩ ∧
      uploadCalls (handleFileChange ["a", "b", "c", "d", "e", "f"]) = []) ∧
    (1 ≤ ["a", "b"].length ∧ ["a", "b"].length ≤ 5 ∧
      (run ⟨["old"], false, some "earlier error", true⟩ (handleFileChange ["a", "b"])).uploadError
        = none ∧
      (run ⟨["old"], false, some "earlier error", true⟩
        (handleFileChange ["a", "b"])).selectedFiles = ["a", "b"] ∧
      uploadCalls (handleFileChange ["a", "b"]) = [["a", "b"]] ∧
      ∀ (userId : String) (outcome : FetchOutcome),
        requests (expandCalls (some userId) outcome (handleFileChange ["a", "b"])) =
          [(["a", "b"], userId)]) ∧
    (([] : List File).length = 0 ∧
      run ⟨["old"], false, some "earlier error", true⟩ (handleFileChange []) =
        ⟨["old"], false, some "earlier error", true⟩) :=
  ⟨⟨by decide,
      ((handleFileChange_cases ⟨["old"], false, none, true⟩
        ["a", "b", "c", "d", "e", "f"]).1 (by decide)).1,
      ((handleFileChange_cases ⟨["old"], false, none, true⟩
        ["a", "b", "c", "d", "e", "f"]).1 (by decide)).2.1⟩,
    ⟨by decide, by decide,
      (handleFileChange_cases ⟨["old"], false, some "earlier error", true⟩
        ["a", "b"]).2.1 (by decide) (by decide)⟩,
    ⟨rfl, ((handleFileChange_cases ⟨["old"], false, some "earlier error", true⟩
        []).2.2 rfl).2⟩⟩

end Sidebar
